import Mathlib

/-!
Verification of the model-based test-generation and execution engine
(`@xstate/test` style) described in the repository's design document.

The repository snapshot contains the engine's test-suite
(`packages/xstate-test/test/*.ts`) and its public type declarations, but not
the engine implementation itself; the engine below is therefore modelled from
the specification, with the repository's own tests pinning the observable
behaviour wherever they speak.  Presentation-only `description` string fields
of plans and paths are not modelled.
-/

namespace XStateTest

/-- Modelled from the spec (§3 Data Model): a Step is `{ state, event }`,
the state being the state *before* the event. -/
structure Step (σ ε : Type) where
  state : σ
  event : ε
deriving DecidableEq

/-- Modelled from the spec (§3 Data Model): a Path is an ordered sequence of
Steps plus the final/target state and its weight (edge count). -/
structure Path (σ ε : Type) where
  state : σ
  steps : List (Step σ ε)
  weight : Nat
deriving DecidableEq

/-- Modelled from the spec (§3 Data Model): a Plan is a target state together
with the paths that reach it.  Named `StatePlan` after the declaration
imported from `@xstate/graph` in the repository's type declarations. -/
structure StatePlan (σ ε : Type) where
  state : σ
  paths : List (Path σ ε)
deriving DecidableEq

/-- Modelled from the spec (§4.1 Behavior Adapter): initial state and a pure
transition function.  Named `SimpleBehavior` after the declaration imported
from `@xstate/graph` in the repository's type declarations. -/
structure SimpleBehavior (σ ε : Type) where
  initialState : σ
  transition : σ → ε → σ

/-- Modelled from the spec (§4.3, §6): traversal configuration.  `getEvents`
enumerates candidate events for a state (the test-suite's custom plan
generator calls `options.getEvents`), `serializeState` is the canonical
string key, `filter` prunes candidate states, `traversalLimit` bounds the
visited/enqueued node count, and `eventType` reads an event's `type` tag. -/
structure TraversalOptions (σ ε : Type) where
  serializeState : σ → String
  getEvents : σ → List ε
  eventType : ε → String
  filter : σ → Bool := fun _ => true
  traversalLimit : Nat := 10000

/-- Modelled from the spec (§7): the fatal generation-time error. -/
inductive TraversalError where
  | traversalLimitExceeded
deriving DecidableEq

instance {α β : Type} [DecidableEq α] [DecidableEq β] : DecidableEq (Except α β) := fun
  | .error a, .error b =>
    if h : a = b then .isTrue (by simp [h]) else .isFalse (by simp [h])
  | .error _, .ok _ => .isFalse (by simp)
  | .ok _, .error _ => .isFalse (by simp)
  | .ok a, .ok b =>
    if h : a = b then .isTrue (by simp [h]) else .isFalse (by simp [h])

/-- Replaying a list of steps' events in order through the behavior's
transition function, starting from the initial state. -/
def replaySteps (b : SimpleBehavior σ ε) (steps : List (Step σ ε)) : σ :=
  steps.foldl (fun s st => b.transition s st.event) b.initialState

/-- The empty path sitting at the initial state. -/
def initPath (b : SimpleBehavior σ ε) : Path σ ε :=
  ⟨b.initialState, [], 0⟩

/-- Modelled from the spec (§4.3 step 3-4, BFS): expand one popped path by
every candidate event; a successor is kept when it survives the filter and
its serialized key is not yet visited (`seen` also accumulates the keys added
within this very expansion, so one batch never enqueues a key twice). -/
def shortestExpand (b : SimpleBehavior σ ε) (o : TraversalOptions σ ε)
    (p : Path σ ε) : List String → List ε → List (Path σ ε)
  | _, [] => []
  | seen, e :: es =>
    let n := b.transition p.state e
    let k := o.serializeState n
    if o.filter n = true ∧ k ∉ seen then
      ⟨n, p.steps ++ [⟨p.state, e⟩], p.weight + 1⟩ :: shortestExpand b o p (k :: seen) es
    else
      shortestExpand b o p seen es

/-- Modelled from the spec (§4.3 BFS steps 1-6): FIFO frontier, visited map
keyed by serialized state (kept in discovery order, so the resulting plan
list starts with the initial state), enqueue/visit counter aborting with the
fatal error once it exceeds the traversal limit.  The structural `fuel`
argument only drives the recursion; `traversalLimit + 2` units are provably
more than the loop can consume before either the frontier empties or the
counter guard aborts, so the fuel-exhaustion branch is unreachable (it
conservatively returns the same fatal error). -/
def shortestLoop (b : SimpleBehavior σ ε) (o : TraversalOptions σ ε) :
    Nat → List (Path σ ε) → List (String × Path σ ε) → Nat →
    Except TraversalError (List (String × Path σ ε))
  | 0, _, _, _ => .error .traversalLimitExceeded
  | _ + 1, [], visited, _ => .ok visited
  | fuel + 1, p :: rest, visited, count =>
    let added := shortestExpand b o p (visited.map Prod.fst) (o.getEvents p.state)
    let count' := count + added.length
    if count' > o.traversalLimit then
      .error .traversalLimitExceeded
    else
      shortestLoop b o fuel (rest ++ added)
        (visited ++ added.map (fun q => (o.serializeState q.state, q))) count'

/-- Modelled from the spec (§4.3 BFS step 6): shortest-plan generation;
exactly one plan per visited serialized state, each holding the single
first-seen (shortest) path. -/
def getShortestPlans (b : SimpleBehavior σ ε) (o : TraversalOptions σ ε) :
    Except TraversalError (List (StatePlan σ ε)) :=
  if 1 > o.traversalLimit then .error .traversalLimitExceeded
  else
    (shortestLoop b o (o.traversalLimit + 2) [initPath b]
        [(o.serializeState b.initialState, initPath b)] 1).map
      (fun visited => visited.map (fun kp => ⟨kp.2.state, [kp.2]⟩))

/-- Modelled from the spec (§4.3 edge cases): target-reachability query;
filters the final plan set by a predicate over the target state. -/
def getShortestPlansTo (b : SimpleBehavior σ ε) (o : TraversalOptions σ ε)
    (pred : σ → Bool) : Except TraversalError (List (StatePlan σ ε)) :=
  (getShortestPlans b o).map (fun plans => plans.filter (fun pl => pred pl.state))

/-- The ordered sequence of event types of a path's steps — its signature
(spec §4.3, simple-plan step 4). -/
def pathSig (o : TraversalOptions σ ε) (p : Path σ ε) : List String :=
  p.steps.map (fun st => o.eventType st.event)

/-- `l₁` is a proper prefix of `l₂` (as a boolean). -/
def properPrefixB (l₁ l₂ : List String) : Bool :=
  l₁.isPrefixOf l₂ && decide (l₁.length < l₂.length)

/-- Modelled from the spec: the spec only says plans are "deduplicated"
before being returned by the plan-level entry points; the exact rule is not
in the repository's files and is reconstructed from its tests
(`plans.test.ts`): a plan is dropped when each of its paths is a proper
prefix (by event-type signature) of some other plan's path, so only maximal
journeys remain — 1 plan for the linear three-state machine, 2 for the
branching five-state machine. -/
def dedupPathPlans (o : TraversalOptions σ ε) (plans : List (StatePlan σ ε)) :
    List (StatePlan σ ε) :=
  plans.filter (fun pl =>
    !(plans.any (fun other =>
      other.paths.any (fun q =>
        pl.paths.all (fun p => properPrefixB (pathSig o p) (pathSig o q))))))

/-- A caller-supplied plan generator fully replaces the built-in algorithm
(spec §4.3 edge cases, §6); named after the repository's `PlanGenerator`
type declaration. -/
def PlanGenerator (σ ε : Type) : Type :=
  SimpleBehavior σ ε → TraversalOptions σ ε → List (StatePlan σ ε)

/-- Modelled from the spec (§4.4): `getPlans` exposes the raw generator —
the caller-supplied `planGenerator` when given (its output is returned
as-is), otherwise the default generator, which the spec leaves unnamed and
the repository's tests pin as deduplicated shortest plans. -/
def getPlans (b : SimpleBehavior σ ε) (o : TraversalOptions σ ε)
    (pg : Option (PlanGenerator σ ε)) :
    Except TraversalError (List (StatePlan σ ε)) :=
  match pg with
  | some g => .ok (g b o)
  | none => (getShortestPlans b o).map (dedupPathPlans o)

/-- Modelled from the spec (§4.3, simple-plan step 1): try each candidate
event of `s` in order; recurse (through `visit`, instantiated with the
depth-first visitor) only when the successor survives the filter and its
serialized key does not already appear among the keys of this very path. -/
def simpleChildren (b : SimpleBehavior σ ε) (o : TraversalOptions σ ε)
    (visit : σ → List (Step σ ε) → List String → Nat →
      Except TraversalError (List (σ × Path σ ε) × Nat))
    (s : σ) (steps : List (Step σ ε)) (pathKeys : List String) :
    Nat → List ε → Except TraversalError (List (σ × Path σ ε) × Nat)
  | count, [] => .ok ([], count)
  | count, e :: es =>
    let n := b.transition s e
    if o.filter n = true ∧ o.serializeState n ∉ pathKeys then
      match visit n (steps ++ [⟨s, e⟩]) pathKeys count with
      | .error err => .error err
      | .ok (sub, cnt) =>
        match simpleChildren b o visit s steps pathKeys cnt es with
        | .error err => .error err
        | .ok (rest, cnt') => .ok (sub ++ rest, cnt')
    else
      simpleChildren b o visit s steps pathKeys count es

/-- Modelled from the spec (§4.3, simple-plan steps 1-3): bounded depth-first
exploration.  Every visited state emits a candidate path; the visit counter
aborts with the fatal error once it exceeds the traversal limit.  As with the
breadth-first loop, the structural `fuel` argument (`traversalLimit + 2` at
the top level) is provably more than the recursion depth the counter guard
allows, so its exhaustion branch is unreachable. -/
def simpleVisit (b : SimpleBehavior σ ε) (o : TraversalOptions σ ε) :
    Nat → σ → List (Step σ ε) → List String → Nat →
    Except TraversalError (List (σ × Path σ ε) × Nat)
  | 0, _, _, _, _ => .error .traversalLimitExceeded
  | fuel + 1, s, steps, pathKeys, count =>
    let count' := count + 1
    if count' > o.traversalLimit then .error .traversalLimitExceeded
    else
      match simpleChildren b o (simpleVisit b o fuel) s steps
          (o.serializeState s :: pathKeys) count' (o.getEvents s) with
      | .error err => .error err
      | .ok (coll, cnt) => .ok ((s, ⟨s, steps, steps.length⟩) :: coll, cnt)

/-- Modelled from the spec (§4.3, simple-plan step 4): append a candidate
path to the plan of its target's serialized key (first-seen plan order),
dropping it when a path with the same event-type signature is already kept
in that plan. -/
def insertCandidate (o : TraversalOptions σ ε) (s : σ) (p : Path σ ε) :
    List (StatePlan σ ε) → List (StatePlan σ ε)
  | [] => [⟨s, [p]⟩]
  | pl :: rest =>
    if o.serializeState pl.state = o.serializeState s then
      (if pl.paths.any (fun q => pathSig o q == pathSig o p) then pl
       else ⟨pl.state, pl.paths ++ [p]⟩) :: rest
    else
      pl :: insertCandidate o s p rest

/-- Modelled from the spec (§4.3, simple-plan step 4): group the depth-first
candidates by target serialized key into plans, deduplicating paths within a
plan by their event-type signature. -/
def groupCandidates (o : TraversalOptions σ ε) (cands : List (σ × Path σ ε)) :
    List (StatePlan σ ε) :=
  cands.foldl (fun plans c => insertCandidate o c.1 c.2 plans) []

/-- Modelled from the spec (§4.3): simple-plan generation — full bounded
depth-first exploration, grouping, signature dedup, and (pinned by the
repository's `getSimplePlans` tests) the same plan-level dedup to maximal
journeys that the default `getPlans` generator applies. -/
def getSimplePlans (b : SimpleBehavior σ ε) (o : TraversalOptions σ ε) :
    Except TraversalError (List (StatePlan σ ε)) :=
  (simpleVisit b o (o.traversalLimit + 2) b.initialState [] [] 0).map
    (fun r => dedupPathPlans o (groupCandidates o r.1))

/-! ### Concrete machines from the repository's test-suite -/

/-- States of the linear machine `a --EVENT--> b --EVENT--> c`
(`plans.test.ts`, `index.test.ts`). -/
inductive LinState where
  | a | b | c
deriving DecidableEq

/-- The linear machine `a --EVENT--> b --EVENT--> c`. -/
def linearBehavior : SimpleBehavior LinState String :=
  { initialState := .a
    transition := fun s e =>
      match s, e with
      | .a, "EVENT" => .b
      | .b, "EVENT" => .c
      | s, _ => s }

/-- Traversal options for the linear machine: canonical keys are the state
names, and each state enumerates its enabled events. -/
def linearOptions : TraversalOptions LinState String :=
  { serializeState := fun s => match s with | .a => "a" | .b => "b" | .c => "c"
    getEvents := fun s => match s with | .a => ["EVENT"] | .b => ["EVENT"] | .c => []
    eventType := id }

/-- States of the branching machine of `plans.test.ts`
(`a → b → c`, then `c --EVENT--> d` and `c --EVENT_2--> e`). -/
inductive MultiState where
  | a | b | c | d | e
deriving DecidableEq

/-- The five-state branching machine of `plans.test.ts`. -/
def multiBehavior : SimpleBehavior MultiState String :=
  { initialState := .a
    transition := fun s e =>
      match s, e with
      | .a, "EVENT" => .b
      | .b, "EVENT" => .c
      | .c, "EVENT" => .d
      | .c, "EVENT_2" => .e
      | s, _ => s }

/-- Traversal options for the branching machine. -/
def multiOptions : TraversalOptions MultiState String :=
  { serializeState := fun s =>
      match s with | .a => "a" | .b => "b" | .c => "c" | .d => "d" | .e => "e"
    getEvents := fun s =>
      match s with
      | .a => ["EVENT"] | .b => ["EVENT"] | .c => ["EVENT", "EVENT_2"]
      | .d => [] | .e => []
    eventType := id }

/-- A canonical string key for a counter value (unary, so provably
injective). -/
def unaryKey (n : Nat) : String :=
  ⟨List.replicate n 'x'⟩

/-- The unbounded counter behavior of `index.test.ts`: a context counter that
strictly grows on every `TOGGLE` transition. -/
def counterBehavior : SimpleBehavior Nat String :=
  { initialState := 0
    transition := fun n _ => n + 1 }

/-- Traversal options for the unbounded counter with `traversalLimit = 100`
and no filter (`index.test.ts`, "prevents infinite recursion based on a
provided limit"). -/
def counterOptions : TraversalOptions Nat String :=
  { serializeState := unaryKey
    getEvents := fun _ => ["TOGGLE"]
    eventType := id
    traversalLimit := 100 }

/-- Traversal options for the counter with the state filter
`count < 5` (`index.test.ts`, "should limit states with filter option"). -/
def counterFilterOptions : TraversalOptions Nat String :=
  { serializeState := unaryKey
    getEvents := fun _ => ["TOGGLE"]
    eventType := id
    filter := fun n => decide (n < 5) }

/-! ### Test executor (spec §4.4): replaying plans against the SUT.
Caller callbacks are modelled as pure functions returning `Option String`
(`some err` models a throw/rejection); the engine's invocations are recorded
in an explicit trace. -/

/-- `{ error: null | Error }` of the repository's result declarations. -/
structure TestStateResult where
  error : Option String
deriving DecidableEq

/-- Per-step result record, mirroring the repository's `TestStepResult`
declaration: the step plus one error slot for its state test and one for its
event execution. -/
structure TestStepResult (σ ε : Type) where
  step : Step σ ε
  state : TestStateResult
  event : TestStateResult
deriving DecidableEq

/-- Mirrors the repository's `TestPathResult` declaration: results for the
attempted steps plus the path's target-state postcondition result. -/
structure TestPathResult (σ ε : Type) where
  steps : List (TestStepResult σ ε)
  state : TestStateResult
deriving DecidableEq

/-- Modelled from the spec (§4.4, §6): executor configuration — per-state
test callbacks keyed by serialized-state key (including the `*` wildcard),
per-event-type exec callbacks, the state-key matcher, and whether a global
`testTransition` hook is installed. -/
structure TestModelOptions (σ ε : Type) where
  states : List (String × (σ → Option String)) := []
  events : List (String × (Step σ ε → Option String)) := []
  stateMatcher : σ → String → Bool := fun _ _ => false
  hasTransitionHook : Bool := false

/-- A behavior together with its traversal and executor options and the
machine's state-node structure (used by coverage): `stateNodes` lists the
node ids a state's configuration occupies, `allStateNodes` every node id of
the machine. -/
structure TestModel (σ ε : Type) where
  behavior : SimpleBehavior σ ε
  options : TraversalOptions σ ε
  testOptions : TestModelOptions σ ε
  stateNodes : σ → List String := fun _ => []
  allStateNodes : List String := []

/-- One recorded engine action during execution: a state visit (used by
coverage), a state-test callback invocation, an event-executor invocation,
or the `testTransition` hook. -/
inductive TestInvocation (σ ε : Type) where
  | visit (s : σ)
  | stateTest (key : String) (s : σ)
  | execEvent (step : Step σ ε)
  | transitionHook (step : Step σ ε)
deriving DecidableEq

/-- Modelled from the spec (§4.4) and pinned by the repository's state-test
suites: the state tests to run for a state are ALL registered non-wildcard
entries whose key matches it (in registration order); the `*` wildcard entry
is used only when no other key matches. -/
def resolvedStateTests (m : TestModel σ ε) (s : σ) :
    List (String × (σ → Option String)) :=
  let matched := m.testOptions.states.filter
    (fun kv => kv.1 != "*" && m.testOptions.stateMatcher s kv.1)
  if matched.isEmpty then m.testOptions.states.filter (fun kv => kv.1 == "*")
  else matched

/-- Run a list of state-test callbacks sequentially; the first throw aborts
the rest, and every invocation is traced. -/
def runStateTestList (s : σ) :
    List (String × (σ → Option String)) →
    Option String × List (TestInvocation σ ε)
  | [] => (none, [])
  | (k, f) :: rest =>
    match f s with
    | some err => (some err, [.stateTest k s])
    | none =>
      let (r, tr) := runStateTestList s rest
      (r, .stateTest k s :: tr)

/-- The engine's state-test step: resolve and run the tests for `s`. -/
def runStateTests (m : TestModel σ ε) (s : σ) :
    Option String × List (TestInvocation σ ε) :=
  runStateTestList s (resolvedStateTests m s)

/-- Resolve the exec callback registered for an event type. -/
def execFor (m : TestModel σ ε) (tp : String) :
    Option (Step σ ε → Option String) :=
  (m.testOptions.events.find? (fun kv => kv.1 == tp)).map Prod.snd

/-- Execute a step's event: invoke its per-event-type exec callback with the
step; an unimplemented event is a silent no-op (pinned by the repository's
"should not throw an error for unimplemented events" test). -/
def runExec (m : TestModel σ ε) (st : Step σ ε) :
    Option String × List (TestInvocation σ ε) :=
  match execFor m (m.options.eventType st.event) with
  | none => (none, [])
  | some f => (f st, [.execEvent st])

/-- Modelled from the spec (§4.4) with the per-step order pinned by the
repository's wildcard state-test snapshot (`['inactive', 'inactive',
'active']`): for each step, first test the step's `state` (the state before
its event), then execute the event, then fire the optional transition hook;
the first captured error ends the loop with no further steps attempted, the
error stored in that step's result entry. -/
def testSteps (m : TestModel σ ε) :
    List (Step σ ε) →
    List (TestStepResult σ ε) × List (TestInvocation σ ε)
  | [] => ([], [])
  | st :: rest =>
    let (sErr, sTr) := runStateTests m st.state
    match sErr with
    | some err => ([⟨st, ⟨some err⟩, ⟨none⟩⟩], .visit st.state :: sTr)
    | none =>
      let (eErr, eTr) := runExec m st
      match eErr with
      | some err => ([⟨st, ⟨none⟩, ⟨some err⟩⟩], .visit st.state :: (sTr ++ eTr))
      | none =>
        let hookTr :=
          if m.testOptions.hasTransitionHook
          then [TestInvocation.transitionHook st] else []
        let (restRes, restTr) := testSteps m rest
        (⟨st, ⟨none⟩, ⟨none⟩⟩ :: restRes,
          .visit st.state :: (sTr ++ eTr ++ hookTr ++ restTr))

/-- Modelled from the spec (§4.4): run a path's steps sequentially
(fail-fast), then invoke the path's own target-state postcondition test
once, after the last attempted step. -/
def testPath (m : TestModel σ ε) (p : Path σ ε) :
    TestPathResult σ ε × List (TestInvocation σ ε) :=
  let (stepsRes, tr) := testSteps m p.steps
  let (tErr, tTr) := runStateTests m p.state
  (⟨stepsRes, ⟨tErr⟩⟩, tr ++ .visit p.state :: tTr)

/-- Run a list of paths sequentially, collecting results and traces. -/
def testPaths (m : TestModel σ ε) :
    List (Path σ ε) →
    List (TestPathResult σ ε) × List (TestInvocation σ ε)
  | [] => ([], [])
  | p :: rest =>
    let (r, tr) := testPath m p
    let (rs, trs) := testPaths m rest
    (r :: rs, tr ++ trs)

/-- Modelled from the spec (§4.4): `testPlan` runs every path of the plan
sequentially. -/
def testPlan (m : TestModel σ ε) (pl : StatePlan σ ε) :
    List (TestPathResult σ ε) × List (TestInvocation σ ε) :=
  testPaths m pl.paths

/-- Modelled from the spec (§4.4): execute a whole plan list sequentially. -/
def testPlans (m : TestModel σ ε) :
    List (StatePlan σ ε) →
    List (TestPathResult σ ε) × List (TestInvocation σ ε)
  | [] => ([], [])
  | pl :: rest =>
    let (r, tr) := testPlan m pl
    let (rs, trs) := testPlans m rest
    (r ++ rs, tr ++ trs)

/-! ### Coverage tracker (spec §4.5) -/

/-- Mirrors the repository's `TestStateCoverage` declaration: a visited
state and how many times it was visited. -/
structure TestStateCoverage (σ : Type) where
  state : σ
  count : Nat
deriving DecidableEq

/-- Mirrors the repository's `TestModelCoverage` declaration: visit counts
keyed by serialized state, and transition counts keyed by serialized
(state, event-type) pairs. -/
structure TestModelCoverage (σ ε : Type) where
  states : List (String × TestStateCoverage σ) := []
  transitions : List (String × Nat) := []
deriving DecidableEq

/-- Count one visit of `s` in the state-coverage record (the first-seen
state instance is kept as the entry's representative). -/
def addStateVisit (o : TraversalOptions σ ε) :
    List (String × TestStateCoverage σ) → σ →
    List (String × TestStateCoverage σ)
  | [], s => [(o.serializeState s, ⟨s, 1⟩)]
  | (k, sc) :: rest, s =>
    if k = o.serializeState s then (k, ⟨sc.state, sc.count + 1⟩) :: rest
    else (k, sc) :: addStateVisit o rest s

/-- Count one executed transition in the transition-coverage record. -/
def addTransitionVisit (o : TraversalOptions σ ε) :
    List (String × Nat) → Step σ ε → List (String × Nat)
  | [], st => [(o.serializeState st.state ++ "|" ++ o.eventType st.event, 1)]
  | (k, c) :: rest, st =>
    if k = o.serializeState st.state ++ "|" ++ o.eventType st.event
    then (k, c + 1) :: rest
    else (k, c) :: addTransitionVisit o rest st

/-- One coverage-accumulation step: count a visited state or an executed
transition. -/
def covStep (m : TestModel σ ε) (cov : TestModelCoverage σ ε) :
    TestInvocation σ ε → TestModelCoverage σ ε
  | .visit s => { cov with states := addStateVisit m.options cov.states s }
  | .execEvent st =>
    { cov with transitions := addTransitionVisit m.options cov.transitions st }
  | _ => cov

/-- Modelled from the spec (§4.5): accumulate the coverage record from an
execution trace — every visited state and every executed transition is
counted. -/
def coverageOf (m : TestModel σ ε) (tr : List (TestInvocation σ ε)) :
    TestModelCoverage σ ε :=
  tr.foldl (covStep m) {}

/-- Every state-coverage entry stores a state whose key it is keyed by, with
a positive count. -/
def CovStatesInv (o : TraversalOptions σ ε)
    (acc : List (String × TestStateCoverage σ)) : Prop :=
  ∀ kv ∈ acc, o.serializeState kv.2.state = kv.1 ∧ 0 < kv.2.count

/-- Coverage status of one criterion. -/
inductive CoverageStatus where
  | covered | uncovered | skipped
deriving DecidableEq

/-- Mirrors the repository's `Criterion` declaration. -/
structure Criterion (σ ε : Type) where
  predicate : TestModelCoverage σ ε → Bool
  description : String
  skip : Bool := false

/-- Mirrors the repository's `CriterionResult` declaration. -/
structure CriterionResult (σ ε : Type) where
  criterion : Criterion σ ε
  status : CoverageStatus

/-- Modelled from the spec (§4.5): map each criterion to `covered` if its
predicate passes over the accumulated coverage, `uncovered` if it fails,
`skipped` if the criterion is marked skip. -/
def getCoverage (criteria : List (Criterion σ ε)) (cov : TestModelCoverage σ ε) :
    List (CriterionResult σ ε) :=
  criteria.map
    (fun c =>
      ⟨c, if c.skip then .skipped
          else if c.predicate cov then .covered else .uncovered⟩)

/-- Modelled from the spec (§4.5) with the criteria set pinned by the
repository's `getCoverage(coversAllStates())` snapshot (which lists one
`Visits "<node>"` criterion per machine state node, the root included): one
criterion per state node, covered when some visited state's configuration
contains that node. -/
def coversAllStates (m : TestModel σ ε) : List (Criterion σ ε) :=
  m.allStateNodes.map
    (fun n =>
      { predicate := fun cov =>
          cov.states.any
            (fun kv => decide (0 < kv.2.count) && (m.stateNodes kv.2.state).contains n)
        description := "Visits \"" ++ n ++ "\"" })

/-- Modelled from the spec (§4.5): `testCoverage` throws an error listing
every uncovered, non-skipped criterion description. -/
def testCoverage (criteria : List (Criterion σ ε)) (cov : TestModelCoverage σ ε) :
    Except (List String) Unit :=
  let uncovered := (getCoverage criteria cov).filter (fun r => r.status == .uncovered)
  if uncovered.isEmpty then .ok ()
  else .error (uncovered.map (fun r => r.criterion.description))

/-! ### Concrete executor models from the repository's test-suite -/

/-- Split a list of characters at every dot. -/
def splitDot : List Char → List (List Char)
  | [] => [[]]
  | c :: rest =>
    let r := splitDot rest
    if c = '.' then [] :: r
    else
      match r with
      | [] => [[c]]
      | g :: gs => (c :: g) :: gs

/-- The dot-separated segments of a state-test key, e.g. `"b.b1"` into
`["b", "b1"]`. -/
def keySegments (k : String) : List String :=
  (splitDot k.data).map (fun g => ⟨g⟩)

/-- The default state-key matcher over a state's hierarchical value: a key
matches when its dot-separated segments are a prefix of the state's
segments, so `b` and `b.b1` both match the nested state value `{b: 'b1'}`. -/
def segMatcher (segs : σ → List String) : σ → String → Bool :=
  fun s k => (keySegments k).isPrefixOf (segs s)

/-- The state values of a trace's state-test invocations (what a state-test
callback pushing `state.value` would observe). -/
def stateTestStates (tr : List (TestInvocation σ ε)) : List σ :=
  tr.filterMap (fun inv =>
    match inv with
    | .stateTest _ s => some s
    | _ => none)

/-- The keys of a trace's state-test invocations. -/
def stateTestKeys (tr : List (TestInvocation σ ε)) : List String :=
  tr.filterMap (fun inv =>
    match inv with
    | .stateTest k _ => some k
    | _ => none)

/-- The steps handed to event-exec callbacks in a trace. -/
def execSteps (tr : List (TestInvocation σ ε)) : List (Step σ ε) :=
  tr.filterMap (fun inv =>
    match inv with
    | .execEvent st => some st
    | _ => none)

/-- States of the two-state machine `inactive --NEXT--> active`
(`index.test.ts`, "options.testState(...) should test state"). -/
inductive TwoState where
  | inactive | active
deriving DecidableEq

/-- The two-state machine `inactive --NEXT--> active`. -/
def twoBehavior : SimpleBehavior TwoState String :=
  { initialState := .inactive
    transition := fun s e =>
      match s, e with
      | .inactive, "NEXT" => .active
      | s, _ => s }

/-- Traversal options for the two-state machine. -/
def twoOptions : TraversalOptions TwoState String :=
  { serializeState := fun s => match s with | .inactive => "inactive" | .active => "active"
    getEvents := fun s => match s with | .inactive => ["NEXT"] | .active => []
    eventType := id }

/-- Hierarchical segments of the two-state machine's state values. -/
def twoSegs : TwoState → List String :=
  fun s => match s with | .inactive => ["inactive"] | .active => ["active"]

/-- The two-state machine's test model with a single wildcard state test,
as in the repository's `options.testState` test. -/
def twoModel : TestModel TwoState String :=
  { behavior := twoBehavior
    options := twoOptions
    testOptions :=
      { states := [("*", fun _ => none)]
        stateMatcher := segMatcher twoSegs }
    stateNodes := fun s =>
      match s with
      | .inactive => ["(machine)", "(machine).inactive"]
      | .active => ["(machine)", "(machine).active"]
    allStateNodes := ["(machine)", "(machine).inactive", "(machine).active"] }

/-- The two shortest plans of the two-state machine (the value
`getShortestPlans twoBehavior twoOptions` returns). -/
def twoShortestPlans : List (StatePlan TwoState String) :=
  [⟨.inactive, [⟨.inactive, [], 0⟩]⟩,
   ⟨.active, [⟨.active, [⟨.inactive, "NEXT"⟩], 1⟩]⟩]

/-- States of the nested machine `a --NEXT--> b` with `b`'s initial child
`b1` (`index.test.ts`, "should test nested states"): the reachable
configurations are `a` and `{b: 'b1'}`. -/
inductive NestedState where
  | a | bb1
deriving DecidableEq

/-- The nested machine `a --NEXT--> b.b1`. -/
def nestedBehavior : SimpleBehavior NestedState String :=
  { initialState := .a
    transition := fun s e =>
      match s, e with
      | .a, "NEXT" => .bb1
      | s, _ => s }

/-- Traversal options for the nested machine. -/
def nestedOptions : TraversalOptions NestedState String :=
  { serializeState := fun s => match s with | .a => "a" | .bb1 => "b.b1"
    getEvents := fun s => match s with | .a => ["NEXT"] | .bb1 => []
    eventType := id }

/-- Hierarchical segments of the nested machine's state values. -/
def nestedSegs : NestedState → List String :=
  fun s => match s with | .a => ["a"] | .bb1 => ["b", "b1"]

/-- The nested machine's test model with state tests registered for `a`,
`b` and `b.b1`, as in the repository's nested-state test. -/
def nestedModel : TestModel NestedState String :=
  { behavior := nestedBehavior
    options := nestedOptions
    testOptions :=
      { states := [("a", fun _ => none), ("b", fun _ => none), ("b.b1", fun _ => none)]
        stateMatcher := segMatcher nestedSegs } }

/-- States of the wildcard machine `a --NEXT--> b`, `a --OTHER--> c`
(`index.test.ts`, "should test wildcard state for non-matching states"). -/
inductive WildState where
  | a | b | c
deriving DecidableEq

/-- The wildcard-test machine `a --NEXT--> b`, `a --OTHER--> c`. -/
def wildBehavior : SimpleBehavior WildState String :=
  { initialState := .a
    transition := fun s e =>
      match s, e with
      | .a, "NEXT" => .b
      | .a, "OTHER" => .c
      | s, _ => s }

/-- Traversal options for the wildcard-test machine. -/
def wildOptions : TraversalOptions WildState String :=
  { serializeState := fun s => match s with | .a => "a" | .b => "b" | .c => "c"
    getEvents := fun s => match s with | .a => ["NEXT", "OTHER"] | _ => []
    eventType := id }

/-- Hierarchical segments of the wildcard-test machine's state values. -/
def wildSegs : WildState → List String :=
  fun s => match s with | .a => ["a"] | .b => ["b"] | .c => ["c"]

/-- The wildcard-test machine's model: exact tests for `a` and `b`, a
wildcard for everything else, as in the repository's wildcard test. -/
def wildModel : TestModel WildState String :=
  { behavior := wildBehavior
    options := wildOptions
    testOptions :=
      { states := [("a", fun _ => none), ("b", fun _ => none), ("*", fun _ => none)]
        stateMatcher := segMatcher wildSegs } }

/-- States of the dynamic-cases machine (`index.test.ts`, "should allow for
dynamic generation of cases based on state"): `a` branches to `b`, `c`, `d`
on `EVENT` according to the event's `value`. -/
inductive DynState where
  | a | b | c | d
deriving DecidableEq

/-- The machine's context (`values: [1, 2, 3]`), read from a state by the
cases generator. -/
def dynContext : DynState → List Nat :=
  fun _ => [1, 2, 3]

/-- An `EVENT` instance: the case payload `{ value }` merged with the
event's type. -/
structure DynEvent where
  value : Nat
deriving DecidableEq

/-- The per-event `cases` generator of the dynamic-cases test: reads the
current state's context values and produces one case payload per value. -/
def dynCases (s : DynState) : List DynEvent :=
  (dynContext s).map (fun v => ⟨v⟩)

/-- The dynamic-cases machine: `EVENT value 1/2/3` sends `a` to `b`/`c`/`d`. -/
def dynBehavior : SimpleBehavior DynState DynEvent :=
  { initialState := .a
    transition := fun s e =>
      match s, e.value with
      | .a, 1 => .b
      | .a, 2 => .c
      | .a, 3 => .d
      | s, _ => s }

/-- Traversal options for the dynamic-cases machine: the candidate events of
a state with `EVENT` enabled are the cases generated from that very state. -/
def dynOptions : TraversalOptions DynState DynEvent :=
  { serializeState := fun s => match s with | .a => "a" | .b => "b" | .c => "c" | .d => "d"
    getEvents := fun s => match s with | .a => dynCases s | _ => []
    eventType := fun _ => "EVENT" }

/-- The dynamic-cases machine's test model: an exec callback is registered
for `EVENT` (the test pushes each executed event). -/
def dynModel : TestModel DynState DynEvent :=
  { behavior := dynBehavior
    options := dynOptions
    testOptions := { events := [("EVENT", fun _ => none)] } }

/-- States of the payload machine (`index.test.ts`, "Event in event executor
should contain payload from case"): `first --NEXT--> second`. -/
inductive PayState where
  | first | second
deriving DecidableEq

/-- A non-serializable case field (a function), as in the repository's
payload test. -/
def nonSerializableData : Nat → Nat :=
  fun _ => 42

/-- A `NEXT` event carrying the case payload (`payload: 10`) and the
non-serializable field, merged with the event's type. -/
structure PayEvent where
  type : String
  payload : Nat
  fn : Nat → Nat

/-- The single case `{ payload: 10, fn: nonSerializableData }` merged with
the `NEXT` type. -/
def payCase : PayEvent :=
  ⟨"NEXT", 10, nonSerializableData⟩

/-- The payload machine `first --NEXT--> second`. -/
def payBehavior : SimpleBehavior PayState PayEvent :=
  { initialState := .first
    transition := fun s e =>
      match s, e.type with
      | .first, "NEXT" => .second
      | s, _ => s }

/-- Traversal options for the payload machine; `first` offers the single
generated case event. -/
def payOptions : TraversalOptions PayState PayEvent :=
  { serializeState := fun s => match s with | .first => "first" | .second => "second"
    getEvents := fun s => match s with | .first => [payCase] | .second => []
    eventType := fun e => e.type }

/-- The payload machine's test model with an exec callback for `NEXT`. -/
def payModel : TestModel PayState PayEvent :=
  { behavior := payBehavior
    options := payOptions
    testOptions := { events := [("NEXT", fun _ => none)] } }

/-- States of the custom-plan-generator machine of `plans.test.ts`
(`a --EVENT--> b`). -/
inductive ABState where
  | a | b
deriving DecidableEq

/-- The machine `a --EVENT--> b` handed to the custom plan generator. -/
def abBehavior : SimpleBehavior ABState String :=
  { initialState := .a
    transition := fun s e =>
      match s, e with
      | .a, "EVENT" => .b
      | s, _ => s }

/-- Traversal options for the `a --EVENT--> b` machine. -/
def abOptions : TraversalOptions ABState String :=
  { serializeState := fun s => match s with | .a => "a" | .b => "b"
    getEvents := fun s => match s with | .a => ["EVENT"] | .b => []
    eventType := id }

/-- The caller-supplied plan generator of `plans.test.ts`: takes the first
event of the initial state, computes the next state through the behavior's
transition function, and returns the single one-step plan to it. -/
def customPlanGenerator : PlanGenerator ABState String :=
  fun behavior options =>
    let events := options.getEvents behavior.initialState
    let nextState := behavior.transition behavior.initialState (events.headD "")
    [{ state := nextState
       paths := [{ state := nextState
                   steps := [{ state := behavior.initialState, event := events.headD "" }]
                   weight := 1 }] }]

/-- A plan generator whose output violates the replay invariant: it claims
the empty step list reaches `b`, although replaying no events stays at the
initial state `a`. -/
def bogusPlanGenerator : PlanGenerator LinState String :=
  fun _ _ => [{ state := .b, paths := [{ state := .b, steps := [], weight := 0 }] }]

/-- The linear machine's model with an event executor that always throws,
exercising the executor's fail-fast capture. -/
def linearFailModel : TestModel LinState String :=
  { behavior := linearBehavior
    options := linearOptions
    testOptions := { events := [("EVENT", fun _ => some "exec boom")] } }

/-- The shortest path of the linear machine to its target `c`. -/
def linearPathToC : Path LinState String :=
  { state := .c
    steps := [⟨.a, "EVENT"⟩, ⟨.b, "EVENT"⟩]
    weight := 2 }

/-! ### Proof-support definitions -/

/-- Replay a step list's events from an arbitrary start state. -/
def replayFrom (b : SimpleBehavior σ ε) (s : σ) (steps : List (Step σ ε)) : σ :=
  steps.foldl (fun t st => b.transition t st.event) s

/-- A step list is a valid surviving journey from `cur`: each step records
the state it leaves, fires an event enumerated there, and its successor
survives the filter. -/
def StepsOkFrom (b : SimpleBehavior σ ε) (o : TraversalOptions σ ε) :
    σ → List (Step σ ε) → Prop
  | _, [] => True
  | cur, st :: rest =>
    st.state = cur ∧ st.event ∈ o.getEvents cur ∧
      o.filter (b.transition cur st.event) = true ∧
      StepsOkFrom b o (b.transition cur st.event) rest

/-- A path is well-formed: its steps are a valid surviving journey from the
initial state, replay to its recorded target, and its weight is its length. -/
def PathOk (b : SimpleBehavior σ ε) (o : TraversalOptions σ ε)
    (p : Path σ ε) : Prop :=
  StepsOkFrom b o b.initialState p.steps ∧
    replaySteps b p.steps = p.state ∧ p.weight = p.steps.length

/-- `s` is reachable from the initial state through a filter-surviving event
journey of length `n`. -/
inductive ReachInW (b : SimpleBehavior σ ε) (o : TraversalOptions σ ε) :
    σ → Nat → Prop where
  | init : ReachInW b o b.initialState 0
  | step : ∀ {s n} (e), ReachInW b o s n → e ∈ o.getEvents s →
      o.filter (b.transition s e) = true →
      ReachInW b o (b.transition s e) (n + 1)

/-- Every filter-surviving successor of `p.state` is visited, with a stored
weight at most one more than `p`'s. -/
def SuccClosed (b : SimpleBehavior σ ε) (o : TraversalOptions σ ε)
    (visited : List (String × Path σ ε)) (p : Path σ ε) : Prop :=
  ∀ e ∈ o.getEvents p.state, o.filter (b.transition p.state e) = true →
    ∃ q, (o.serializeState (b.transition p.state e), q) ∈ visited ∧
      q.weight ≤ p.weight + 1

/-- The breadth-first loop invariant: visited entries are well-formed and
keyed by their target, keys are unique, the frontier is a sub-collection of
the visited entries, every visited entry is either still frontier or has all
its surviving successors visited (with the weight bound), frontier weights
are non-decreasing and spread by at most one, visited weights never trail a
frontier weight by more than one, and the enqueue counter equals the visited
count and respects the limit. -/
structure BfsInv (b : SimpleBehavior σ ε) (o : TraversalOptions σ ε)
    (frontier : List (Path σ ε)) (visited : List (String × Path σ ε))
    (count : Nat) : Prop where
  vis_ok : ∀ kp ∈ visited, PathOk b o kp.2 ∧ kp.1 = o.serializeState kp.2.state
  keys_nodup : (visited.map Prod.fst).Nodup
  frontier_mem : ∀ p ∈ frontier, (o.serializeState p.state, p) ∈ visited
  closed : ∀ kp ∈ visited, kp.2 ∈ frontier ∨ SuccClosed b o visited kp.2
  sorted : List.Pairwise (· ≤ ·) (frontier.map Path.weight)
  spread : ∀ p ∈ frontier, ∀ q ∈ frontier, p.weight ≤ q.weight + 1
  vis_ub : ∀ kp ∈ visited, ∀ q ∈ frontier, kp.2.weight ≤ q.weight + 1
  count_eq : count = visited.length
  count_le : count ≤ o.traversalLimit
  init_mem : (o.serializeState b.initialState, initPath b) ∈ visited

/-- What holds of the visited collection when the breadth-first loop drains
its frontier: well-formed uniquely-keyed entries, closure under surviving
transitions with the breadth-first weight bound, the initial state present
with the empty path, and the visited count within the limit. -/
structure BfsFinal (b : SimpleBehavior σ ε) (o : TraversalOptions σ ε)
    (visited : List (String × Path σ ε)) : Prop where
  vis_ok : ∀ kp ∈ visited, PathOk b o kp.2 ∧ kp.1 = o.serializeState kp.2.state
  keys_nodup : (visited.map Prod.fst).Nodup
  closed : ∀ kp ∈ visited, SuccClosed b o visited kp.2
  init_mem : (o.serializeState b.initialState, initPath b) ∈ visited
  size_le : visited.length ≤ o.traversalLimit

/-- Join key segments with dots, e.g. `["b", "b1"]` into `"b.b1"`. -/
def joinDots : List String → String
  | [] => ""
  | [s] => s
  | s :: rest => s ++ "." ++ joinDots rest

/-- The key list the claim's state-test resolution rule would invoke: try
the exact composite key, then each ancestor segment (most specific first),
then the wildcard, stopping at the first registered hit. -/
def claimStateTestKeys (registered : List String) (segs : List String) : List String :=
  let candidates :=
    (List.range segs.length).map
      (fun i => joinDots (segs.take (segs.length - i)))
  match candidates.find? (fun k => registered.contains k) with
  | some k => [k]
  | none => if registered.contains "*" then ["*"] else []

/-! ### Lemmas: replay and journey validity -/

theorem replayFrom_append (b : SimpleBehavior σ ε) (s : σ)
    (l₁ l₂ : List (Step σ ε)) :
    replayFrom b s (l₁ ++ l₂) = replayFrom b (replayFrom b s l₁) l₂ := by
  simp [replayFrom, List.foldl_append]

theorem replaySteps_eq_replayFrom (b : SimpleBehavior σ ε)
    (steps : List (Step σ ε)) :
    replaySteps b steps = replayFrom b b.initialState steps := rfl

theorem replayFrom_nil (b : SimpleBehavior σ ε) (s : σ) :
    replayFrom b s [] = s := rfl

theorem replayFrom_cons (b : SimpleBehavior σ ε) (s : σ) (st : Step σ ε)
    (rest : List (Step σ ε)) :
    replayFrom b s (st :: rest) = replayFrom b (b.transition s st.event) rest := rfl

theorem stepsOkFrom_nil (b : SimpleBehavior σ ε) (o : TraversalOptions σ ε)
    (s : σ) : StepsOkFrom b o s [] ↔ True := Iff.rfl

theorem stepsOkFrom_cons (b : SimpleBehavior σ ε) (o : TraversalOptions σ ε)
    (s : σ) (st : Step σ ε) (rest : List (Step σ ε)) :
    StepsOkFrom b o s (st :: rest) ↔
      st.state = s ∧ st.event ∈ o.getEvents s ∧
        o.filter (b.transition s st.event) = true ∧
        StepsOkFrom b o (b.transition s st.event) rest := Iff.rfl

theorem stepsOkFrom_append (b : SimpleBehavior σ ε) (o : TraversalOptions σ ε)
    (l₁ l₂ : List (Step σ ε)) :
    ∀ s, StepsOkFrom b o s (l₁ ++ l₂) ↔
      StepsOkFrom b o s l₁ ∧ StepsOkFrom b o (replayFrom b s l₁) l₂ := by
  induction l₁ with
  | nil => intro s; simp [stepsOkFrom_nil, replayFrom_nil]
  | cons st rest ih =>
    intro s
    simp only [List.cons_append, stepsOkFrom_cons, ih, replayFrom_cons]
    tauto

theorem stepsOk_reach (b : SimpleBehavior σ ε) (o : TraversalOptions σ ε) :
    ∀ (steps : List (Step σ ε)) (s : σ) (n : Nat),
      StepsOkFrom b o s steps → ReachInW b o s n →
      ReachInW b o (replayFrom b s steps) (n + steps.length) := by
  intro steps
  induction steps with
  | nil => intro s n _ hr; simpa [replayFrom] using hr
  | cons st rest ih =>
    intro s n hok hr
    obtain ⟨h1, h2, h3, h4⟩ := hok
    have hr' : ReachInW b o (b.transition s st.event) (n + 1) := by
      subst h1
      exact ReachInW.step st.event hr h2 h3
    have := ih (b.transition s st.event) (n + 1) h4 hr'
    have hrw : replayFrom b s (st :: rest) =
        replayFrom b (b.transition s st.event) rest := by
      simp [replayFrom]
    rw [hrw]
    simpa [Nat.add_comm, Nat.add_assoc, Nat.add_left_comm] using this

theorem pathOk_reach (b : SimpleBehavior σ ε) (o : TraversalOptions σ ε)
    (p : Path σ ε) (h : PathOk b o p) : ReachInW b o p.state p.weight := by
  obtain ⟨hsteps, hreplay, hweight⟩ := h
  have := stepsOk_reach b o p.steps b.initialState 0 hsteps ReachInW.init
  rw [← replaySteps_eq_replayFrom] at this
  rw [hreplay] at this
  simpa [hweight] using this

theorem stepsOk_filter_last (b : SimpleBehavior σ ε) (o : TraversalOptions σ ε) :
    ∀ (steps : List (Step σ ε)) (s : σ),
      StepsOkFrom b o s steps → steps ≠ [] →
      o.filter (replayFrom b s steps) = true := by
  intro steps
  induction steps with
  | nil => intro s _ h; exact absurd rfl h
  | cons st rest ih =>
    intro s hok _
    obtain ⟨h1, h2, h3, h4⟩ := hok
    by_cases hr : rest = []
    · subst hr
      simpa [replayFrom] using h3
    · have := ih (b.transition s st.event) h4 hr
      simpa [replayFrom] using this

/-! ### Lemmas: the breadth-first expansion -/

theorem shortestExpand_shape (b : SimpleBehavior σ ε) (o : TraversalOptions σ ε)
    (p : Path σ ε) :
    ∀ (evs : List ε) (seen : List String),
      ∀ q ∈ shortestExpand b o p seen evs,
        (∃ e ∈ evs, q = ⟨b.transition p.state e, p.steps ++ [⟨p.state, e⟩], p.weight + 1⟩) ∧
          o.filter q.state = true ∧ o.serializeState q.state ∉ seen := by
  intro evs
  induction evs with
  | nil => intro seen q hq; simp [shortestExpand] at hq
  | cons e es ih =>
    intro seen q hq
    rw [shortestExpand] at hq
    split at hq
    · rename_i hcond
      rcases List.mem_cons.mp hq with hq | hq
      · subst hq
        exact ⟨⟨e, List.mem_cons_self e es, rfl⟩, hcond.1, hcond.2⟩
      · obtain ⟨⟨e', he', hq'⟩, hfil, hseen⟩ := ih _ q hq
        refine ⟨⟨e', List.mem_cons_of_mem _ he', hq'⟩, hfil, ?_⟩
        intro hmem
        exact hseen (List.mem_cons_of_mem _ hmem)
    · obtain ⟨⟨e', he', hq'⟩, hfil, hseen⟩ := ih _ q hq
      exact ⟨⟨e', List.mem_cons_of_mem _ he', hq'⟩, hfil, hseen⟩

theorem shortestExpand_keys_fresh (b : SimpleBehavior σ ε)
    (o : TraversalOptions σ ε) (p : Path σ ε) :
    ∀ (evs : List ε) (seen : List String),
      ((shortestExpand b o p seen evs).map
        (fun q => o.serializeState q.state)).Nodup ∧
      ∀ q ∈ shortestExpand b o p seen evs, o.serializeState q.state ∉ seen := by
  intro evs
  induction evs with
  | nil => intro seen; simp [shortestExpand]
  | cons e es ih =>
    intro seen
    rw [shortestExpand]
    split
    · rename_i hcond
      obtain ⟨ihnd, ihfresh⟩ := ih (o.serializeState (b.transition p.state e) :: seen)
      constructor
      · simp only [List.map_cons, List.nodup_cons]
        refine ⟨?_, ihnd⟩
        intro hmem
        obtain ⟨q, hq, hkey⟩ := List.mem_map.mp hmem
        exact ihfresh q hq (by simp [hkey])
      · intro q hq
        rcases List.mem_cons.mp hq with hq | hq
        · subst hq; exact hcond.2
        · intro hmem
          exact ihfresh q hq (List.mem_cons_of_mem _ hmem)
    · obtain ⟨ihnd, ihfresh⟩ := ih seen
      exact ⟨ihnd, ihfresh⟩

theorem shortestExpand_covers (b : SimpleBehavior σ ε)
    (o : TraversalOptions σ ε) (p : Path σ ε) :
    ∀ (evs : List ε) (seen : List String),
      ∀ e ∈ evs, o.filter (b.transition p.state e) = true →
        o.serializeState (b.transition p.state e) ∈ seen ∨
        ∃ q ∈ shortestExpand b o p seen evs,
          o.serializeState q.state = o.serializeState (b.transition p.state e) := by
  intro evs
  induction evs with
  | nil => intro seen e he; simp at he
  | cons e' es ih =>
    intro seen e he hfil
    rw [shortestExpand]
    rcases List.mem_cons.mp he with he | he
    · subst he
      by_cases hseen : o.serializeState (b.transition p.state e) ∈ seen
      · exact Or.inl hseen
      · rw [if_pos ⟨hfil, hseen⟩]
        exact Or.inr ⟨_, List.mem_cons_self _ _, rfl⟩
    · split
      · rename_i hcond
        rcases ih (o.serializeState (b.transition p.state e') :: seen) e he hfil with h | h
        · rcases List.mem_cons.mp h with h | h
          · exact Or.inr ⟨_, List.mem_cons_self _ _, h.symm⟩
          · exact Or.inl h
        · obtain ⟨q, hq, hkey⟩ := h
          exact Or.inr ⟨q, List.mem_cons_of_mem _ hq, hkey⟩
      · exact ih seen e he hfil

/-! ### Lemmas: the breadth-first loop invariant -/

theorem pairwise_le_of_const (c : Nat) :
    ∀ (l : List Nat), (∀ x ∈ l, x = c) → List.Pairwise (· ≤ ·) l := by
  intro l
  induction l with
  | nil => intro _; exact List.Pairwise.nil
  | cons x xs ih =>
    intro h
    refine List.Pairwise.cons ?_ (ih (fun y hy => h y (List.mem_cons_of_mem _ hy)))
    intro y hy
    rw [h x (List.mem_cons_self _ _), h y (List.mem_cons_of_mem _ hy)]

theorem shortestLoop_zero (b : SimpleBehavior σ ε) (o : TraversalOptions σ ε)
    (frontier : List (Path σ ε)) (visited : List (String × Path σ ε))
    (count : Nat) :
    shortestLoop b o 0 frontier visited count = .error .traversalLimitExceeded := rfl

theorem shortestLoop_nil (b : SimpleBehavior σ ε) (o : TraversalOptions σ ε)
    (fuel : Nat) (visited : List (String × Path σ ε)) (count : Nat) :
    shortestLoop b o (fuel + 1) [] visited count = .ok visited := rfl

theorem shortestLoop_cons (b : SimpleBehavior σ ε) (o : TraversalOptions σ ε)
    (fuel : Nat) (p : Path σ ε) (rest : List (Path σ ε))
    (visited : List (String × Path σ ε)) (count : Nat) :
    shortestLoop b o (fuel + 1) (p :: rest) visited count =
      if count + (shortestExpand b o p (visited.map Prod.fst) (o.getEvents p.state)).length >
          o.traversalLimit
      then .error .traversalLimitExceeded
      else shortestLoop b o fuel
        (rest ++ shortestExpand b o p (visited.map Prod.fst) (o.getEvents p.state))
        (visited ++ (shortestExpand b o p (visited.map Prod.fst) (o.getEvents p.state)).map
          (fun q => (o.serializeState q.state, q)))
        (count + (shortestExpand b o p (visited.map Prod.fst) (o.getEvents p.state)).length) := rfl

theorem pathOk_extend (b : SimpleBehavior σ ε) (o : TraversalOptions σ ε)
    (p : Path σ ε) (e : ε) (hp : PathOk b o p) (he : e ∈ o.getEvents p.state)
    (hf : o.filter (b.transition p.state e) = true) :
    PathOk b o ⟨b.transition p.state e, p.steps ++ [⟨p.state, e⟩], p.weight + 1⟩ := by
  obtain ⟨hsteps, hreplay, hweight⟩ := hp
  have hrep : replayFrom b b.initialState p.steps = p.state := by
    rw [← replaySteps_eq_replayFrom]; exact hreplay
  refine ⟨?_, ?_, ?_⟩
  · rw [stepsOkFrom_append]
    refine ⟨hsteps, ?_⟩
    rw [hrep]
    exact ⟨rfl, he, hf, trivial⟩
  · show replaySteps b (p.steps ++ [⟨p.state, e⟩]) = b.transition p.state e
    rw [replaySteps_eq_replayFrom, replayFrom_append, hrep]
    rfl
  · simp [hweight]

theorem bfsInv_step (b : SimpleBehavior σ ε) (o : TraversalOptions σ ε)
    (p : Path σ ε) (rest : List (Path σ ε))
    (visited : List (String × Path σ ε)) (count : Nat)
    (hinv : BfsInv b o (p :: rest) visited count)
    (hle : ¬ count + (shortestExpand b o p (visited.map Prod.fst) (o.getEvents p.state)).length >
      o.traversalLimit) :
    BfsInv b o
      (rest ++ shortestExpand b o p (visited.map Prod.fst) (o.getEvents p.state))
      (visited ++ (shortestExpand b o p (visited.map Prod.fst) (o.getEvents p.state)).map
        (fun q => (o.serializeState q.state, q)))
      (count + (shortestExpand b o p (visited.map Prod.fst) (o.getEvents p.state)).length) := by
  obtain ⟨hvo, hnd, hfm, hcl, hsort, hspread, hvub, hceq, hcle, hinit⟩ := hinv
  set added := shortestExpand b o p (visited.map Prod.fst) (o.getEvents p.state) with hadded
  have hp_mem : (o.serializeState p.state, p) ∈ visited :=
    hfm p (List.mem_cons_self _ _)
  have hp_ok : PathOk b o p := (hvo _ hp_mem).1
  have hshape := shortestExpand_shape b o p (o.getEvents p.state) (visited.map Prod.fst)
  have hfresh := shortestExpand_keys_fresh b o p (o.getEvents p.state) (visited.map Prod.fst)
  have hweight_added : ∀ q ∈ added, q.weight = p.weight + 1 := by
    intro q hq
    obtain ⟨⟨e, _, hq'⟩, _, _⟩ := hshape q hq
    rw [hq']
  have hok_added : ∀ q ∈ added, PathOk b o q := by
    intro q hq
    obtain ⟨⟨e, he, hq'⟩, _, _⟩ := hshape q hq
    have hfil : o.filter (b.transition p.state e) = true := by
      have := (hshape q hq).2.1
      rw [hq'] at this
      exact this
    rw [hq']
    exact pathOk_extend b o p e hp_ok he hfil
  have hsort' : (∀ r ∈ rest, p.weight ≤ r.weight) ∧
      List.Pairwise (· ≤ ·) (rest.map Path.weight) := by
    simpa using hsort
  have hhead_le : ∀ r ∈ rest, p.weight ≤ r.weight := hsort'.1
  constructor
  case vis_ok =>
    intro kp hkp
    rcases List.mem_append.mp hkp with hkp | hkp
    · exact hvo kp hkp
    · obtain ⟨q, hq, hkp'⟩ := List.mem_map.mp hkp
      rw [← hkp']
      exact ⟨hok_added q hq, rfl⟩
  case keys_nodup =>
    rw [List.map_append, List.map_map]
    rw [List.nodup_append]
    refine ⟨hnd, ?_, ?_⟩
    · have := hfresh.1
      simpa using this
    · intro a ha hamem
      have : ∃ q ∈ added, o.serializeState q.state = a := by
        simpa using hamem
      obtain ⟨q, hq, hkey⟩ := this
      exact hfresh.2 q hq (by rw [hkey]; exact ha)
  case frontier_mem =>
    intro p' hp'
    rcases List.mem_append.mp hp' with hp' | hp'
    · exact List.mem_append_left _ (hfm p' (List.mem_cons_of_mem _ hp'))
    · exact List.mem_append_right _ (List.mem_map_of_mem _ hp')
  case closed =>
    intro kp hkp
    rcases List.mem_append.mp hkp with hkp | hkp
    · rcases hcl kp hkp with hin | hsc
      · rcases List.mem_cons.mp hin with hin | hin
        · right
          rw [hin]
          intro e he hfil
          rcases shortestExpand_covers b o p (o.getEvents p.state)
              (visited.map Prod.fst) e he hfil with hseen | hnew
          · obtain ⟨⟨k, q⟩, hmemq, hkq⟩ := List.mem_map.mp hseen
            refine ⟨q, ?_, ?_⟩
            · apply List.mem_append_left
              simpa [← hkq] using hmemq
            · exact hvub ⟨k, q⟩ hmemq p (List.mem_cons_self _ _)
          · obtain ⟨q, hq, hkey⟩ := hnew
            refine ⟨q, ?_, ?_⟩
            · apply List.mem_append_right
              rw [← hkey]
              exact List.mem_map_of_mem _ hq
            · rw [hweight_added q hq]
        · left
          exact List.mem_append_left _ hin
      · right
        intro e he hfil
        obtain ⟨q, hqmem, hqw⟩ := hsc e he hfil
        exact ⟨q, List.mem_append_left _ hqmem, hqw⟩
    · obtain ⟨q, hq, hkp'⟩ := List.mem_map.mp hkp
      left
      rw [← hkp']
      exact List.mem_append_right _ hq
  case sorted =>
    rw [List.map_append]
    rw [List.pairwise_append]
    refine ⟨?_, ?_, ?_⟩
    · exact (List.pairwise_cons.mp (by simpa using hsort)).2
    · apply pairwise_le_of_const (p.weight + 1)
      intro x hx
      obtain ⟨q, hq, hx'⟩ := List.mem_map.mp hx
      rw [← hx']
      exact hweight_added q hq
    · intro x hx y hy
      obtain ⟨r, hr, hx'⟩ := List.mem_map.mp hx
      obtain ⟨q, hq, hy'⟩ := List.mem_map.mp hy
      rw [← hx', ← hy', hweight_added q hq]
      exact hspread r (List.mem_cons_of_mem _ hr) p (List.mem_cons_self _ _)
  case spread =>
    intro p' hp' q' hq'
    rcases List.mem_append.mp hp' with hp' | hp' <;>
      rcases List.mem_append.mp hq' with hq' | hq'
    · exact hspread p' (List.mem_cons_of_mem _ hp') q' (List.mem_cons_of_mem _ hq')
    · rw [hweight_added q' hq']
      have := hspread p' (List.mem_cons_of_mem _ hp') p (List.mem_cons_self _ _)
      omega
    · rw [hweight_added p' hp']
      have := hhead_le q' hq'
      omega
    · rw [hweight_added p' hp', hweight_added q' hq']
      omega
  case vis_ub =>
    intro kp hkp q' hq'
    rcases List.mem_append.mp hkp with hkp | hkp <;>
      rcases List.mem_append.mp hq' with hq' | hq'
    · exact hvub kp hkp q' (List.mem_cons_of_mem _ hq')
    · rw [hweight_added q' hq']
      have := hvub kp hkp p (List.mem_cons_self _ _)
      omega
    · obtain ⟨q, hq, hkp'⟩ := List.mem_map.mp hkp
      rw [← hkp']
      have hw : q.weight = p.weight + 1 := hweight_added q hq
      have := hhead_le q' hq'
      simp only [hw]
      omega
    · obtain ⟨q, hq, hkp'⟩ := List.mem_map.mp hkp
      rw [← hkp']
      have hw : q.weight = p.weight + 1 := hweight_added q hq
      rw [hweight_added q' hq']
      simp only [hw]
      omega
  case count_eq =>
    rw [hceq]
    simp
  case count_le =>
    omega
  case init_mem =>
    exact List.mem_append_left _ hinit

theorem bfsInv_final (b : SimpleBehavior σ ε) (o : TraversalOptions σ ε)
    (visited : List (String × Path σ ε)) (count : Nat)
    (hinv : BfsInv b o [] visited count) : BfsFinal b o visited := by
  obtain ⟨hvo, hnd, _, hcl, _, _, _, hceq, hcle, hinit⟩ := hinv
  refine ⟨hvo, hnd, ?_, hinit, ?_⟩
  · intro kp hkp
    rcases hcl kp hkp with hin | hsc
    · simp at hin
    · exact hsc
  · omega

theorem shortestLoop_final (b : SimpleBehavior σ ε) (o : TraversalOptions σ ε) :
    ∀ (fuel : Nat) (frontier : List (Path σ ε))
      (visited : List (String × Path σ ε)) (count : Nat)
      (vis' : List (String × Path σ ε)),
      shortestLoop b o fuel frontier visited count = .ok vis' →
      BfsInv b o frontier visited count →
      BfsFinal b o vis' := by
  intro fuel
  induction fuel with
  | zero =>
    intro frontier visited count vis' h _
    rw [shortestLoop_zero] at h
    cases h
  | succ fuel ih =>
    intro frontier visited count vis' h hinv
    cases frontier with
    | nil =>
      rw [shortestLoop_nil] at h
      cases h
      exact bfsInv_final b o visited count hinv
    | cons p rest =>
      rw [shortestLoop_cons] at h
      split at h
      · cases h
      · rename_i hle
        exact ih _ _ _ _ h (bfsInv_step b o p rest visited count hinv hle)

/-! ### Lemmas: properties of shortest-plan generation -/

theorem initPath_ok (b : SimpleBehavior σ ε) (o : TraversalOptions σ ε) :
    PathOk b o (initPath b) :=
  ⟨trivial, rfl, rfl⟩

theorem getShortestPlans_ok_final (b : SimpleBehavior σ ε)
    (o : TraversalOptions σ ε) (plans : List (StatePlan σ ε))
    (h : getShortestPlans b o = .ok plans) :
    ∃ vis, BfsFinal b o vis ∧
      plans = vis.map (fun kp => ⟨kp.2.state, [kp.2]⟩) := by
  rw [getShortestPlans] at h
  split at h
  · cases h
  · rename_i hlim
    cases hloop : shortestLoop b o (o.traversalLimit + 2) [initPath b]
        [(o.serializeState b.initialState, initPath b)] 1 with
    | error e =>
      rw [hloop] at h
      cases h
    | ok vis =>
      rw [hloop] at h
      have hplans : plans = vis.map (fun kp => ⟨kp.2.state, [kp.2]⟩) := by
        have : Except.ok (ε := TraversalError)
            (vis.map (fun kp => (⟨kp.2.state, [kp.2]⟩ : StatePlan σ ε))) = .ok plans := h
        cases this
        rfl
      refine ⟨vis, ?_, hplans⟩
      apply shortestLoop_final b o _ _ _ _ _ hloop
      constructor
      case vis_ok =>
        intro kp hkp
        rcases List.mem_singleton.mp hkp with rfl
        exact ⟨initPath_ok b o, rfl⟩
      case keys_nodup => simp
      case frontier_mem =>
        intro p hp
        rcases List.mem_singleton.mp hp with rfl
        simp [initPath]
      case closed =>
        intro kp hkp
        rcases List.mem_singleton.mp hkp with rfl
        left
        simp
      case sorted => simp
      case spread =>
        intro p hp q hq
        rcases List.mem_singleton.mp hp with rfl
        rcases List.mem_singleton.mp hq with rfl
        omega
      case vis_ub =>
        intro kp hkp q hq
        rcases List.mem_singleton.mp hkp with rfl
        rcases List.mem_singleton.mp hq with rfl
        simp [initPath]
      case count_eq => simp
      case count_le => omega
      case init_mem => simp

theorem bfsFinal_complete (b : SimpleBehavior σ ε) (o : TraversalOptions σ ε)
    (vis : List (String × Path σ ε))
    (hinj : Function.Injective o.serializeState) (hf : BfsFinal b o vis) :
    ∀ (s : σ) (n : Nat), ReachInW b o s n →
      ∃ q, (o.serializeState s, q) ∈ vis ∧ q.weight ≤ n ∧ q.state = s := by
  intro s n hr
  induction hr with
  | init =>
    exact ⟨initPath b, hf.init_mem, Nat.le_refl _, rfl⟩
  | step e hre hmem hfil ih =>
    obtain ⟨q, hq, hqw, hqs⟩ := ih
    have hsc : SuccClosed b o vis q := hf.closed _ hq
    have hmem' : e ∈ o.getEvents q.state := by rw [hqs]; exact hmem
    have hfil' : o.filter (b.transition q.state e) = true := by rw [hqs]; exact hfil
    obtain ⟨q', hq', hq'w⟩ := hsc e hmem' hfil'
    rw [hqs] at hq'
    refine ⟨q', hq', by omega, ?_⟩
    have hkey : o.serializeState _ = o.serializeState q'.state := (hf.vis_ok _ hq').2
    exact (hinj hkey).symm

theorem keyed_unique {α β : Type} (l : List (α × β))
    (hnd : (l.map Prod.fst).Nodup) :
    ∀ {k : α} {a b : β}, (k, a) ∈ l → (k, b) ∈ l → a = b := by
  induction l with
  | nil => intro k a b ha _; simp at ha
  | cons x xs ih =>
    intro k a b ha hb
    have hx : x.1 ∉ xs.map Prod.fst := (List.nodup_cons.mp (by simpa using hnd)).1
    have hnd' : (xs.map Prod.fst).Nodup := (List.nodup_cons.mp (by simpa using hnd)).2
    rcases List.mem_cons.mp ha with ha | ha <;> rcases List.mem_cons.mp hb with hb | hb
    · rw [← ha] at hb
      exact (Prod.mk.injEq _ _ _ _).mp hb.symm |>.2
    · exfalso
      apply hx
      have : x.1 = k := by rw [← ha]
      rw [this]
      exact List.mem_map_of_mem Prod.fst hb
    · exfalso
      apply hx
      have : x.1 = k := by rw [← hb]
      rw [this]
      exact List.mem_map_of_mem Prod.fst ha
    · exact ih hnd' ha hb

theorem getShortestPlans_single_path (b : SimpleBehavior σ ε)
    (o : TraversalOptions σ ε) (plans : List (StatePlan σ ε))
    (h : getShortestPlans b o = .ok plans) :
    ∀ pl ∈ plans, ∃ p, pl.paths = [p] ∧ p.state = pl.state ∧ PathOk b o p := by
  obtain ⟨vis, hf, rfl⟩ := getShortestPlans_ok_final b o plans h
  intro pl hpl
  obtain ⟨kp, hkp, rfl⟩ := List.mem_map.mp hpl
  exact ⟨kp.2, rfl, rfl, (hf.vis_ok _ hkp).1⟩

theorem getShortestPlans_keys_nodup (b : SimpleBehavior σ ε)
    (o : TraversalOptions σ ε) (plans : List (StatePlan σ ε))
    (h : getShortestPlans b o = .ok plans) :
    (plans.map (fun pl => o.serializeState pl.state)).Nodup := by
  obtain ⟨vis, hf, rfl⟩ := getShortestPlans_ok_final b o plans h
  rw [List.map_map]
  have : vis.map ((fun pl : StatePlan σ ε => o.serializeState pl.state) ∘
      (fun kp : String × Path σ ε => ⟨kp.2.state, [kp.2]⟩)) = vis.map Prod.fst := by
    apply List.map_congr_left
    intro kp hkp
    exact ((hf.vis_ok kp hkp).2).symm
  rw [this]
  exact hf.keys_nodup

theorem getShortestPlans_complete (b : SimpleBehavior σ ε)
    (o : TraversalOptions σ ε) (plans : List (StatePlan σ ε))
    (hinj : Function.Injective o.serializeState)
    (h : getShortestPlans b o = .ok plans) :
    ∀ (s : σ) (n : Nat), ReachInW b o s n →
      ∃ pl ∈ plans, pl.state = s ∧ ∃ p, pl.paths = [p] ∧ p.weight ≤ n := by
  obtain ⟨vis, hf, rfl⟩ := getShortestPlans_ok_final b o plans h
  intro s n hr
  obtain ⟨q, hq, hqw, hqs⟩ := bfsFinal_complete b o vis hinj hf s n hr
  exact ⟨⟨q.state, [q]⟩, List.mem_map_of_mem _ hq, hqs, q, rfl, hqw⟩

theorem getShortestPlans_minimal (b : SimpleBehavior σ ε)
    (o : TraversalOptions σ ε) (plans : List (StatePlan σ ε))
    (hinj : Function.Injective o.serializeState)
    (h : getShortestPlans b o = .ok plans) :
    ∀ pl ∈ plans, ∀ p, pl.paths = [p] →
      ReachInW b o pl.state p.weight ∧
      ∀ n, ReachInW b o pl.state n → p.weight ≤ n := by
  obtain ⟨vis, hf, rfl⟩ := getShortestPlans_ok_final b o plans h
  intro pl hpl p hpaths
  obtain ⟨kp, hkp, hpl'⟩ := List.mem_map.mp hpl
  have hp : kp.2 = p := by
    have : pl.paths = [kp.2] := by rw [← hpl']
    rw [hpaths] at this
    exact (List.cons.injEq _ _ _ _).mp this.symm |>.1
  have hstate : pl.state = p.state := by
    rw [← hpl', ← hp]
  constructor
  · rw [hstate]
    exact pathOk_reach b o p (hp ▸ (hf.vis_ok _ hkp).1)
  · intro n hn
    rw [hstate] at hn
    obtain ⟨q, hq, hqw, hqs⟩ := bfsFinal_complete b o vis hinj hf p.state n hn
    have hkey : kp.1 = o.serializeState p.state := by
      rw [(hf.vis_ok _ hkp).2, hp]
    have hmem₁ : (o.serializeState p.state, kp.2) ∈ vis := by
      rw [← hkey]
      exact (by simpa using hkp)
    have := keyed_unique vis hf.keys_nodup hmem₁ hq
    rw [← this, hp] at hqw
    exact hqw

theorem getShortestPlans_filter_inv (b : SimpleBehavior σ ε)
    (o : TraversalOptions σ ε) (plans : List (StatePlan σ ε))
    (h : getShortestPlans b o = .ok plans) :
    ∀ pl ∈ plans, pl.state = b.initialState ∨ o.filter pl.state = true := by
  obtain ⟨vis, hf, rfl⟩ := getShortestPlans_ok_final b o plans h
  intro pl hpl
  obtain ⟨kp, hkp, rfl⟩ := List.mem_map.mp hpl
  obtain ⟨hsteps, hreplay, _⟩ := (hf.vis_ok _ hkp).1
  by_cases hnil : kp.2.steps = []
  · left
    rw [← hreplay, hnil]
    rfl
  · right
    have := stepsOk_filter_last b o kp.2.steps b.initialState hsteps hnil
    rw [← replaySteps_eq_replayFrom] at this
    rw [hreplay] at this
    exact this

theorem getShortestPlans_limit_exceeded (b : SimpleBehavior σ ε)
    (o : TraversalOptions σ ε)
    (hinj : Function.Injective o.serializeState) (L : List σ)
    (hreach : ∀ s ∈ L, ∃ n, ReachInW b o s n)
    (hnd : (L.map o.serializeState).Nodup)
    (hlen : o.traversalLimit < L.length) :
    getShortestPlans b o = .error .traversalLimitExceeded := by
  cases h : getShortestPlans b o with
  | error e => cases e; rfl
  | ok plans =>
    exfalso
    obtain ⟨vis, hf, _⟩ := getShortestPlans_ok_final b o plans h
    have hsub : (L.map o.serializeState) ⊆ vis.map Prod.fst := by
      intro k hk
      obtain ⟨s, hs, rfl⟩ := List.mem_map.mp hk
      obtain ⟨n, hn⟩ := hreach s hs
      obtain ⟨q, hq, _, _⟩ := bfsFinal_complete b o vis hinj hf s n hn
      exact List.mem_map.mpr ⟨(o.serializeState s, q), hq, rfl⟩
    have hle := (List.subperm_of_subset hnd hsub).length_le
    have : L.length ≤ vis.length := by simpa using hle
    have := hf.size_le
    omega

/-! ### Lemmas: simple-plan generation -/

theorem replaySteps_snoc (b : SimpleBehavior σ ε) (steps : List (Step σ ε))
    (st : Step σ ε) :
    replaySteps b (steps ++ [st]) = b.transition (replaySteps b steps) st.event := by
  rw [replaySteps_eq_replayFrom, replayFrom_append]
  rfl

theorem simpleVisit_zero (b : SimpleBehavior σ ε) (o : TraversalOptions σ ε)
    (s : σ) (steps : List (Step σ ε)) (pathKeys : List String) (count : Nat) :
    simpleVisit b o 0 s steps pathKeys count = .error .traversalLimitExceeded := rfl

theorem simpleVisit_succ (b : SimpleBehavior σ ε) (o : TraversalOptions σ ε)
    (fuel : Nat) (s : σ) (steps : List (Step σ ε)) (pathKeys : List String)
    (count : Nat) :
    simpleVisit b o (fuel + 1) s steps pathKeys count =
      if count + 1 > o.traversalLimit then .error .traversalLimitExceeded
      else
        match simpleChildren b o (simpleVisit b o fuel) s steps
            (o.serializeState s :: pathKeys) (count + 1) (o.getEvents s) with
        | .error err => .error err
        | .ok (coll, cnt) => .ok ((s, ⟨s, steps, steps.length⟩) :: coll, cnt) := rfl

theorem simpleChildren_sound (b : SimpleBehavior σ ε) (o : TraversalOptions σ ε)
    (visit : σ → List (Step σ ε) → List String → Nat →
      Except TraversalError (List (σ × Path σ ε) × Nat))
    (hvisit : ∀ (n : σ) (steps : List (Step σ ε)) (pk : List String) (cnt : Nat) r,
      visit n steps pk cnt = .ok r → replaySteps b steps = n →
      ∀ c ∈ r.1, c.2.state = c.1 ∧ replaySteps b c.2.steps = c.2.state)
    (s : σ) (steps : List (Step σ ε)) (pathKeys : List String) :
    ∀ (evs : List ε) (count : Nat) r,
      simpleChildren b o visit s steps pathKeys count evs = .ok r →
      replaySteps b steps = s →
      ∀ c ∈ r.1, c.2.state = c.1 ∧ replaySteps b c.2.steps = c.2.state := by
  intro evs
  induction evs with
  | nil =>
    intro count r h _ c hc
    rw [simpleChildren] at h
    cases h
    simp at hc
  | cons e es ih =>
    intro count r h hrep c hc
    rw [simpleChildren] at h
    split at h
    · rename_i hcond
      cases hv : visit (b.transition s e) (steps ++ [⟨s, e⟩]) pathKeys count with
      | error err => rw [hv] at h; cases h
      | ok rv =>
        obtain ⟨sub, cnt⟩ := rv
        rw [hv] at h
        dsimp only at h
        cases hrest : simpleChildren b o visit s steps pathKeys cnt es with
        | error err =>
          rw [hrest] at h
          cases h
        | ok rr =>
          obtain ⟨restc, cnt'⟩ := rr
          rw [hrest] at h
          dsimp only at h
          cases h
          have hrepn : replaySteps b (steps ++ [(⟨s, e⟩ : Step σ ε)]) = b.transition s e := by
            rw [replaySteps_snoc, hrep]
          rcases List.mem_append.mp (by simpa using hc) with hc' | hc'
          · exact hvisit _ _ _ _ (sub, cnt) hv hrepn c hc'
          · exact ih cnt (restc, cnt') hrest hrep c hc'
    · exact ih count r h hrep c hc

theorem simpleVisit_sound (b : SimpleBehavior σ ε) (o : TraversalOptions σ ε) :
    ∀ (fuel : Nat) (s : σ) (steps : List (Step σ ε)) (pk : List String)
      (count : Nat) r,
      simpleVisit b o fuel s steps pk count = .ok r →
      replaySteps b steps = s →
      ∀ c ∈ r.1, c.2.state = c.1 ∧ replaySteps b c.2.steps = c.2.state := by
  intro fuel
  induction fuel with
  | zero =>
    intro s steps pk count r h _ c hc
    rw [simpleVisit_zero] at h
    cases h
  | succ fuel ih =>
    intro s steps pk count r h hrep c hc
    rw [simpleVisit_succ] at h
    split at h
    · cases h
    · cases hch : simpleChildren b o (simpleVisit b o fuel) s steps
          (o.serializeState s :: pk) (count + 1) (o.getEvents s) with
      | error err => rw [hch] at h; cases h
      | ok rc =>
        rw [hch] at h
        cases h
        rcases List.mem_cons.mp (by simpa using hc) with hc' | hc'
        · rw [hc']
          exact ⟨rfl, hrep⟩
        · exact simpleChildren_sound b o (simpleVisit b o fuel)
            (fun n st pk' cnt r' h' hr' => ih n st pk' cnt r' h' hr')
            s steps (o.serializeState s :: pk) (o.getEvents s) (count + 1)
            rc hch hrep c hc'

theorem insertCandidate_paths (o : TraversalOptions σ ε) (P : Path σ ε → Prop)
    (s : σ) (p : Path σ ε) (hP : P p) :
    ∀ (plans : List (StatePlan σ ε)),
      (∀ pl ∈ plans, ∀ q ∈ pl.paths, P q) →
      ∀ pl ∈ insertCandidate o s p plans, ∀ q ∈ pl.paths, P q := by
  intro plans
  induction plans with
  | nil =>
    intro _ pl hpl q hq
    rw [insertCandidate] at hpl
    rcases List.mem_singleton.mp hpl with rfl
    rcases List.mem_singleton.mp hq with rfl
    exact hP
  | cons pl₀ rest ih =>
    intro hall pl hpl q hq
    rw [insertCandidate] at hpl
    split at hpl
    · rcases List.mem_cons.mp hpl with hpl | hpl
      · subst hpl
        split at hq
        · exact hall pl₀ (List.mem_cons_self _ _) q hq
        · rcases (by simpa using hq : q ∈ pl₀.paths ∨ q = p) with hq' | rfl
          · exact hall pl₀ (List.mem_cons_self _ _) q hq'
          · exact hP
      · exact hall pl (List.mem_cons_of_mem _ hpl) q hq
    · rcases List.mem_cons.mp hpl with hpl | hpl
      · subst hpl
        exact hall pl (List.mem_cons_self _ _) q hq
      · exact ih (fun pl' hpl' => hall pl' (List.mem_cons_of_mem _ hpl')) pl hpl q hq

theorem groupCandidates_paths (o : TraversalOptions σ ε) (P : Path σ ε → Prop) :
    ∀ (cands : List (σ × Path σ ε)) (acc : List (StatePlan σ ε)),
      (∀ pl ∈ acc, ∀ q ∈ pl.paths, P q) → (∀ c ∈ cands, P c.2) →
      ∀ pl ∈ cands.foldl (fun plans c => insertCandidate o c.1 c.2 plans) acc,
        ∀ q ∈ pl.paths, P q := by
  intro cands
  induction cands with
  | nil => intro acc hacc _; simpa using hacc
  | cons c cs ih =>
    intro acc hacc hcands
    rw [List.foldl_cons]
    exact ih (insertCandidate o c.1 c.2 acc)
      (insertCandidate_paths o P c.1 c.2 (hcands c (List.mem_cons_self _ _)) acc hacc)
      (fun c' hc' => hcands c' (List.mem_cons_of_mem _ hc'))

theorem getSimplePlans_ok_parts (b : SimpleBehavior σ ε) (o : TraversalOptions σ ε)
    (plans : List (StatePlan σ ε)) (h : getSimplePlans b o = .ok plans) :
    ∃ r, simpleVisit b o (o.traversalLimit + 2) b.initialState [] [] 0 = .ok r ∧
      plans = dedupPathPlans o (groupCandidates o r.1) := by
  rw [getSimplePlans] at h
  cases hv : simpleVisit b o (o.traversalLimit + 2) b.initialState [] [] 0 with
  | error err => rw [hv] at h; cases h
  | ok r =>
    rw [hv] at h
    have : Except.ok (ε := TraversalError)
        (dedupPathPlans o (groupCandidates o r.1)) = .ok plans := h
    cases this
    exact ⟨r, rfl, rfl⟩

theorem getSimplePlans_sound (b : SimpleBehavior σ ε) (o : TraversalOptions σ ε)
    (plans : List (StatePlan σ ε)) (h : getSimplePlans b o = .ok plans) :
    ∀ pl ∈ plans, ∀ p ∈ pl.paths, replaySteps b p.steps = p.state := by
  obtain ⟨r, hr, rfl⟩ := getSimplePlans_ok_parts b o plans h
  intro pl hpl p hp
  have hmem : pl ∈ groupCandidates o r.1 := List.mem_of_mem_filter hpl
  have hc := simpleVisit_sound b o (o.traversalLimit + 2) b.initialState [] [] 0 r hr rfl
  exact groupCandidates_paths o (fun q => replaySteps b q.steps = q.state)
    r.1 [] (by simp) (fun c hcm => (hc c hcm).2) pl hmem p hp

theorem insertCandidate_pairwise_sig (o : TraversalOptions σ ε) (s : σ)
    (p : Path σ ε) :
    ∀ (plans : List (StatePlan σ ε)),
      (∀ pl ∈ plans,
        List.Pairwise (fun q q' => pathSig o q ≠ pathSig o q') pl.paths) →
      ∀ pl ∈ insertCandidate o s p plans,
        List.Pairwise (fun q q' => pathSig o q ≠ pathSig o q') pl.paths := by
  intro plans
  induction plans with
  | nil =>
    intro _ pl hpl
    rw [insertCandidate] at hpl
    rcases List.mem_singleton.mp hpl with rfl
    simp
  | cons pl₀ rest ih =>
    intro hall pl hpl
    rw [insertCandidate] at hpl
    split at hpl
    · rcases List.mem_cons.mp hpl with hpl | hpl
      · subst hpl
        split
        · exact hall pl₀ (List.mem_cons_self _ _)
        · rename_i hnone
          rw [List.pairwise_append]
          refine ⟨hall pl₀ (List.mem_cons_self _ _), by simp, ?_⟩
          intro q hq q' hq'
          rcases List.mem_singleton.mp hq' with rfl
          have : ¬ (pathSig o q == pathSig o q') = true := by
            intro hbeq
            exact hnone (List.any_eq_true.mpr ⟨q, hq, hbeq⟩)
          intro heq
          exact this (by simp [heq])
      · exact hall pl (List.mem_cons_of_mem _ hpl)
    · rcases List.mem_cons.mp hpl with hpl | hpl
      · subst hpl
        exact hall pl (List.mem_cons_self _ _)
      · exact ih (fun pl' hpl' => hall pl' (List.mem_cons_of_mem _ hpl')) pl hpl

theorem groupCandidates_pairwise_sig (o : TraversalOptions σ ε) :
    ∀ (cands : List (σ × Path σ ε)) (acc : List (StatePlan σ ε)),
      (∀ pl ∈ acc,
        List.Pairwise (fun q q' => pathSig o q ≠ pathSig o q') pl.paths) →
      ∀ pl ∈ cands.foldl (fun plans c => insertCandidate o c.1 c.2 plans) acc,
        List.Pairwise (fun q q' => pathSig o q ≠ pathSig o q') pl.paths := by
  intro cands
  induction cands with
  | nil => intro acc hacc; simpa using hacc
  | cons c cs ih =>
    intro acc hacc
    rw [List.foldl_cons]
    exact ih (insertCandidate o c.1 c.2 acc)
      (insertCandidate_pairwise_sig o c.1 c.2 acc hacc)

theorem getSimplePlans_sig_dedup (b : SimpleBehavior σ ε)
    (o : TraversalOptions σ ε) (plans : List (StatePlan σ ε))
    (h : getSimplePlans b o = .ok plans) :
    ∀ pl ∈ plans,
      List.Pairwise (fun q q' => pathSig o q ≠ pathSig o q') pl.paths := by
  obtain ⟨r, _, rfl⟩ := getSimplePlans_ok_parts b o plans h
  intro pl hpl
  have hmem : pl ∈ groupCandidates o r.1 := List.mem_of_mem_filter hpl
  exact groupCandidates_pairwise_sig o r.1 [] (by simp) pl hmem

/-! ### Lemmas: the test executor -/

theorem testSteps_nil (m : TestModel σ ε) : testSteps m [] = ([], []) := rfl

theorem testSteps_cons_stateErr (m : TestModel σ ε) (st : Step σ ε)
    (rest : List (Step σ ε)) (err : String) (sTr : List (TestInvocation σ ε))
    (hse : runStateTests m st.state = (some err, sTr)) :
    testSteps m (st :: rest) =
      ([⟨st, ⟨some err⟩, ⟨none⟩⟩], .visit st.state :: sTr) := by
  rw [testSteps, hse]

theorem testSteps_cons_eventErr (m : TestModel σ ε) (st : Step σ ε)
    (rest : List (Step σ ε)) (sTr : List (TestInvocation σ ε)) (err : String)
    (eTr : List (TestInvocation σ ε))
    (hse : runStateTests m st.state = (none, sTr))
    (hee : runExec m st = (some err, eTr)) :
    testSteps m (st :: rest) =
      ([⟨st, ⟨none⟩, ⟨some err⟩⟩], .visit st.state :: (sTr ++ eTr)) := by
  rw [testSteps, hse, hee]

theorem testSteps_cons_ok (m : TestModel σ ε) (st : Step σ ε)
    (rest : List (Step σ ε)) (sTr eTr : List (TestInvocation σ ε))
    (hse : runStateTests m st.state = (none, sTr))
    (hee : runExec m st = (none, eTr)) :
    testSteps m (st :: rest) =
      (⟨st, ⟨none⟩, ⟨none⟩⟩ :: (testSteps m rest).1,
        .visit st.state ::
          (sTr ++ eTr ++
            (if m.testOptions.hasTransitionHook
             then [TestInvocation.transitionHook st] else []) ++
            (testSteps m rest).2)) := by
  rw [testSteps, hse, hee]

theorem testSteps_results (m : TestModel σ ε) :
    ∀ (l : List (Step σ ε)),
      (testSteps m l).1.map TestStepResult.step =
        l.take (testSteps m l).1.length ∧
      (testSteps m l).1.length ≤ l.length ∧
      (∀ r ∈ (testSteps m l).1.dropLast,
        r.state.error = none ∧ r.event.error = none) ∧
      ((testSteps m l).1.length < l.length →
        ∃ r, (testSteps m l).1.getLast? = some r ∧
          (r.state.error ≠ none ∨ r.event.error ≠ none)) ∧
      (∀ r ∈ (testSteps m l).1,
        r.state.error = (runStateTests m r.step.state).1 ∧
        (r.state.error = none → r.event.error = (runExec m r.step).1)) := by
  intro l
  induction l with
  | nil =>
    rw [testSteps_nil]
    refine ⟨rfl, Nat.le_refl _, ?_, ?_, ?_⟩ <;> simp
  | cons st rest ih =>
    rcases hse : runStateTests m st.state with ⟨sErr, sTr⟩
    cases sErr with
    | some err =>
      rw [testSteps_cons_stateErr m st rest err sTr hse]
      refine ⟨by simp, by simp, by simp, ?_, ?_⟩
      · intro _
        refine ⟨_, rfl, Or.inl ?_⟩
        simp
      · intro r hr
        rcases List.mem_singleton.mp hr with rfl
        constructor
        · rw [hse]
        · intro hcontra
          cases hcontra
    | none =>
      rcases hee : runExec m st with ⟨eErr, eTr⟩
      cases eErr with
      | some err =>
        rw [testSteps_cons_eventErr m st rest sTr err eTr hse hee]
        refine ⟨by simp, by simp, by simp, ?_, ?_⟩
        · intro _
          refine ⟨_, rfl, Or.inr ?_⟩
          simp
        · intro r hr
          rcases List.mem_singleton.mp hr with rfl
          refine ⟨by rw [hse], fun _ => by rw [hee]⟩
      | none =>
        rw [testSteps_cons_ok m st rest sTr eTr hse hee]
        rcases htr : testSteps m rest with ⟨restRes, restTr⟩
        rw [htr] at ih
        obtain ⟨ihA, ihB, ihC, ihD, ihE⟩ := ih
        simp only at ihA ihB ihC ihD ihE
        refine ⟨?_, ?_, ?_, ?_, ?_⟩
        · simp only [List.map_cons, List.length_cons, List.take_succ_cons]
          rw [ihA]
        · simp only [List.length_cons]
          omega
        · intro r hr
          cases restRes with
          | nil => simp at hr
          | cons a as =>
            have hd : ((⟨st, ⟨none⟩, ⟨none⟩⟩ : TestStepResult σ ε) :: a :: as).dropLast =
                ⟨st, ⟨none⟩, ⟨none⟩⟩ :: (a :: as).dropLast := rfl
            rw [hd] at hr
            rcases List.mem_cons.mp hr with rfl | hr'
            · exact ⟨rfl, rfl⟩
            · exact ihC r hr'
        · intro hlen
          simp only [List.length_cons] at hlen
          have hlt : restRes.length < rest.length := by omega
          obtain ⟨r, hlast, herr⟩ := ihD hlt
          cases restRes with
          | nil => cases hlast
          | cons a as =>
            refine ⟨r, ?_, herr⟩
            rw [← hlast]
            rfl
        · intro r hr
          rcases List.mem_cons.mp hr with rfl | hr'
          · refine ⟨by rw [hse], fun _ => by rw [hee]⟩
          · exact ihE r hr'

theorem runStateTestList_nil (s : σ) :
    (runStateTestList s [] : Option String × List (TestInvocation σ ε)) =
      (none, []) := rfl

theorem runStateTestList_cons_err (s : σ) (k : String) (f : σ → Option String)
    (rest : List (String × (σ → Option String))) (err : String)
    (hf : f s = some err) :
    (runStateTestList s ((k, f) :: rest) :
        Option String × List (TestInvocation σ ε)) =
      (some err, [.stateTest k s]) := by
  rw [runStateTestList, hf]

theorem runStateTestList_cons_ok (s : σ) (k : String) (f : σ → Option String)
    (rest : List (String × (σ → Option String)))
    (hf : f s = none) :
    (runStateTestList s ((k, f) :: rest) :
        Option String × List (TestInvocation σ ε)) =
      ((runStateTestList s rest :
          Option String × List (TestInvocation σ ε)).1,
        .stateTest k s ::
          (runStateTestList s rest :
            Option String × List (TestInvocation σ ε)).2) := by
  rw [runStateTestList, hf]

theorem stateTestKeys_nil :
    stateTestKeys ([] : List (TestInvocation σ ε)) = [] := rfl

theorem stateTestKeys_cons_stateTest (k : String) (s : σ)
    (tr : List (TestInvocation σ ε)) :
    stateTestKeys (.stateTest k s :: tr) = k :: stateTestKeys tr := rfl

theorem runStateTestList_keys_sub (s : σ) :
    ∀ (tests : List (String × (σ → Option String))),
      stateTestKeys
        ((runStateTestList s tests : Option String × List (TestInvocation σ ε)).2) ⊆
        tests.map Prod.fst := by
  intro tests
  induction tests with
  | nil =>
    intro k hk
    rw [runStateTestList_nil, stateTestKeys_nil] at hk
    cases hk
  | cons kv rest ih =>
    obtain ⟨k₀, f⟩ := kv
    intro k hk
    rcases hf : f s with _ | err
    · rw [runStateTestList_cons_ok s k₀ f rest hf] at hk
      rw [stateTestKeys_cons_stateTest] at hk
      rcases List.mem_cons.mp hk with rfl | hk'
      · exact List.mem_cons_self _ _
      · exact List.mem_cons_of_mem _ (ih hk')
    · rw [runStateTestList_cons_err s k₀ f rest err hf] at hk
      rw [show ([.stateTest k₀ s] : List (TestInvocation σ ε)) =
        .stateTest k₀ s :: [] from rfl, stateTestKeys_cons_stateTest,
        stateTestKeys_nil] at hk
      rcases List.mem_singleton.mp hk with rfl
      exact List.mem_cons_self _ _

theorem runStateTestList_keys_all_pass (s : σ) :
    ∀ (tests : List (String × (σ → Option String))),
      (∀ kv ∈ tests, kv.2 s = none) →
      stateTestKeys
        ((runStateTestList s tests : Option String × List (TestInvocation σ ε)).2) =
        tests.map Prod.fst := by
  intro tests
  induction tests with
  | nil => intro _; rfl
  | cons kv rest ih =>
    obtain ⟨k₀, f⟩ := kv
    intro hall
    have hf : f s = none := hall (k₀, f) (List.mem_cons_self _ _)
    rw [runStateTestList_cons_ok s k₀ f rest hf]
    rw [stateTestKeys_cons_stateTest, List.map_cons]
    rw [ih (fun kv' hkv' => hall kv' (List.mem_cons_of_mem _ hkv'))]

theorem resolvedStateTests_no_match (m : TestModel σ ε) (s : σ)
    (hmatch : m.testOptions.states.filter
      (fun kv => kv.1 != "*" && m.testOptions.stateMatcher s kv.1) = [])
    (hwild : m.testOptions.states.filter (fun kv => kv.1 == "*") = []) :
    runStateTests m s = (none, []) := by
  rw [runStateTests]
  have hres : resolvedStateTests m s = [] := by
    rw [resolvedStateTests]
    simp only [hmatch, hwild, List.isEmpty_nil, if_pos]
  rw [hres]
  rfl

theorem resolvedStateTests_wildcard_not_matched (m : TestModel σ ε) (s : σ)
    (hmatch : m.testOptions.states.filter
      (fun kv => kv.1 != "*" && m.testOptions.stateMatcher s kv.1) ≠ []) :
    "*" ∉ stateTestKeys (runStateTests m s).2 ∧
      stateTestKeys (runStateTests m s).2 ⊆
        (m.testOptions.states.filter
          (fun kv => kv.1 != "*" && m.testOptions.stateMatcher s kv.1)).map Prod.fst := by
  have hres : resolvedStateTests m s =
      m.testOptions.states.filter
        (fun kv => kv.1 != "*" && m.testOptions.stateMatcher s kv.1) := by
    rw [resolvedStateTests]
    have hie : (m.testOptions.states.filter
        (fun kv => kv.1 != "*" && m.testOptions.stateMatcher s kv.1)).isEmpty = false := by
      rcases hcase : m.testOptions.states.filter
          (fun kv => kv.1 != "*" && m.testOptions.stateMatcher s kv.1) with _ | ⟨a, l⟩
      · exact absurd hcase hmatch
      · rw [hcase]
        rfl
    simp [hie]
  have hsub : stateTestKeys (runStateTests m s).2 ⊆
      (m.testOptions.states.filter
        (fun kv => kv.1 != "*" && m.testOptions.stateMatcher s kv.1)).map Prod.fst := by
    rw [runStateTests, hres]
    exact runStateTestList_keys_sub s _
  refine ⟨?_, hsub⟩
  intro hmem
  have := hsub hmem
  obtain ⟨kv, hkv, hfst⟩ := List.mem_map.mp this
  have := List.of_mem_filter hkv
  rw [hfst] at this
  simp at this

/-- The full trace of `testPath` decomposes into the step-loop trace followed
by the target visit and the target-state postcondition tests, and the result
records the target tests' outcome. -/
theorem testPath_target (m : TestModel σ ε) (p : Path σ ε) :
    (testPath m p).1.state.error = (runStateTests m p.state).1 ∧
    (testPath m p).1.steps = (testSteps m p.steps).1 ∧
    (testPath m p).2 =
      (testSteps m p.steps).2 ++ .visit p.state :: (runStateTests m p.state).2 := by
  rw [testPath]
  rcases hts : testSteps m p.steps with ⟨stepsRes, tr⟩
  rcases hrt : runStateTests m p.state with ⟨tErr, tTr⟩
  exact ⟨rfl, rfl, rfl⟩

theorem testPath_first_tested (m : TestModel σ ε) (p : Path σ ε)
    (st : Step σ ε) (rest : List (Step σ ε)) (hsteps : p.steps = st :: rest) :
    ∃ tr, (testPath m p).2 =
      .visit st.state :: ((runStateTests m st.state).2 ++ tr) := by
  obtain ⟨_, _, hdecomp⟩ := testPath_target m p
  rw [hsteps] at hdecomp
  rcases hse : runStateTests m st.state with ⟨sErr, sTr⟩
  cases sErr with
  | some err =>
    rw [testSteps_cons_stateErr m st rest err sTr hse] at hdecomp
    refine ⟨.visit p.state :: (runStateTests m p.state).2, ?_⟩
    rw [hdecomp]
    simp [hse]
  | none =>
    rcases hee : runExec m st with ⟨eErr, eTr⟩
    cases eErr with
    | some err =>
      rw [testSteps_cons_eventErr m st rest sTr err eTr hse hee] at hdecomp
      refine ⟨eTr ++ (.visit p.state :: (runStateTests m p.state).2), ?_⟩
      rw [hdecomp]
      simp [hse]
    | none =>
      rw [testSteps_cons_ok m st rest sTr eTr hse hee] at hdecomp
      refine ⟨eTr ++
        (if m.testOptions.hasTransitionHook
         then [TestInvocation.transitionHook st] else []) ++
        (testSteps m rest).2 ++ (.visit p.state :: (runStateTests m p.state).2), ?_⟩
      rw [hdecomp]
      simp [hse]

theorem testPath_no_steps (m : TestModel σ ε) (p : Path σ ε)
    (hsteps : p.steps = []) :
    (testPath m p).2 = .visit p.state :: (runStateTests m p.state).2 := by
  obtain ⟨_, _, hdecomp⟩ := testPath_target m p
  rw [hsteps, testSteps_nil] at hdecomp
  simpa using hdecomp

theorem testPath_visits_target (m : TestModel σ ε) (p : Path σ ε) :
    TestInvocation.visit p.state ∈ (testPath m p).2 := by
  obtain ⟨_, _, hdecomp⟩ := testPath_target m p
  rw [hdecomp]
  exact List.mem_append_right _ (List.mem_cons_self _ _)

theorem testPaths_visits (m : TestModel σ ε) :
    ∀ (paths : List (Path σ ε)) (p : Path σ ε), p ∈ paths →
      TestInvocation.visit p.state ∈ (testPaths m paths).2 := by
  intro paths
  induction paths with
  | nil => intro p hp; simp at hp
  | cons q rest ih =>
    intro p hp
    rw [testPaths]
    rcases htp : testPath m q with ⟨r, tr⟩
    rcases htr : testPaths m rest with ⟨rs, trs⟩
    rcases List.mem_cons.mp hp with rfl | hp'
    · apply List.mem_append_left
      have := testPath_visits_target m p
      rw [htp] at this
      exact this
    · apply List.mem_append_right
      have := ih p hp'
      rw [htr] at this
      exact this

theorem testPlans_visits (m : TestModel σ ε) :
    ∀ (plans : List (StatePlan σ ε)) (pl : StatePlan σ ε) (p : Path σ ε),
      pl ∈ plans → p ∈ pl.paths →
      TestInvocation.visit p.state ∈ (testPlans m plans).2 := by
  intro plans
  induction plans with
  | nil => intro pl p hpl; simp at hpl
  | cons pl₀ rest ih =>
    intro pl p hpl hp
    rw [testPlans]
    rcases htp : testPlan m pl₀ with ⟨r, tr⟩
    rcases htr : testPlans m rest with ⟨rs, trs⟩
    rcases List.mem_cons.mp hpl with rfl | hpl'
    · apply List.mem_append_left
      have := testPaths_visits m pl.paths p hp
      rw [testPlan] at htp
      rw [htp] at this
      exact this
    · apply List.mem_append_right
      have := ih pl p hpl' hp
      rw [htr] at this
      exact this

/-! ### Lemmas: coverage accumulation -/

theorem addStateVisit_inv (o : TraversalOptions σ ε) :
    ∀ (acc : List (String × TestStateCoverage σ)) (s : σ),
      CovStatesInv o acc → CovStatesInv o (addStateVisit o acc s) := by
  intro acc
  induction acc with
  | nil =>
    intro s _ kv hkv
    rw [addStateVisit] at hkv
    rcases List.mem_singleton.mp hkv with rfl
    exact ⟨rfl, Nat.zero_lt_one⟩
  | cons kv₀ rest ih =>
    intro s hinv kv hkv
    obtain ⟨k₀, sc₀⟩ := kv₀
    rw [addStateVisit] at hkv
    split at hkv
    · rcases List.mem_cons.mp hkv with rfl | hkv'
      · have h₀ := hinv (k₀, sc₀) (List.mem_cons_self _ _)
        exact ⟨h₀.1, Nat.succ_pos _⟩
      · exact hinv _ (List.mem_cons_of_mem _ hkv')
    · rcases List.mem_cons.mp hkv with rfl | hkv'
      · exact hinv _ (List.mem_cons_self _ _)
      · exact ih s (fun kv' hkv'' => hinv kv' (List.mem_cons_of_mem _ hkv'')) kv hkv'

theorem addStateVisit_mem (o : TraversalOptions σ ε) :
    ∀ (acc : List (String × TestStateCoverage σ)) (s : σ),
      ∃ sc, (o.serializeState s, sc) ∈ addStateVisit o acc s := by
  intro acc
  induction acc with
  | nil =>
    intro s
    rw [addStateVisit]
    exact ⟨⟨s, 1⟩, List.mem_singleton.mpr rfl⟩
  | cons kv₀ rest ih =>
    intro s
    obtain ⟨k₀, sc₀⟩ := kv₀
    rw [addStateVisit]
    split
    · rename_i hk
      exact ⟨⟨sc₀.state, sc₀.count + 1⟩, by rw [← hk]; exact List.mem_cons_self _ _⟩
    · obtain ⟨sc, hsc⟩ := ih s
      exact ⟨sc, List.mem_cons_of_mem _ hsc⟩

theorem addStateVisit_mem_mono (o : TraversalOptions σ ε) :
    ∀ (acc : List (String × TestStateCoverage σ)) (s : σ) (k : String),
      (∃ sc, (k, sc) ∈ acc) → ∃ sc, (k, sc) ∈ addStateVisit o acc s := by
  intro acc
  induction acc with
  | nil => intro s k h; simp at h
  | cons kv₀ rest ih =>
    intro s k h
    obtain ⟨k₀, sc₀⟩ := kv₀
    obtain ⟨sc, hsc⟩ := h
    rw [addStateVisit]
    split
    · rcases List.mem_cons.mp hsc with heq | hmem
      · have : k = k₀ := by
          have := (Prod.mk.injEq _ _ _ _).mp heq
          exact this.1
        rw [this]
        exact ⟨⟨sc₀.state, sc₀.count + 1⟩, List.mem_cons_self _ _⟩
      · exact ⟨sc, List.mem_cons_of_mem _ hmem⟩
    · rcases List.mem_cons.mp hsc with heq | hmem
      · have hk : k = k₀ := ((Prod.mk.injEq _ _ _ _).mp heq).1
        rw [hk]
        exact ⟨sc₀, List.mem_cons_self _ _⟩
      · obtain ⟨sc', hsc'⟩ := ih s k ⟨sc, hmem⟩
        exact ⟨sc', List.mem_cons_of_mem _ hsc'⟩

theorem covStep_inv (m : TestModel σ ε) (cov : TestModelCoverage σ ε)
    (inv : TestInvocation σ ε) (h : CovStatesInv m.options cov.states) :
    CovStatesInv m.options (covStep m cov inv).states := by
  cases inv with
  | visit s => exact addStateVisit_inv m.options cov.states s h
  | execEvent st => exact h
  | stateTest k s => exact h
  | transitionHook st => exact h

theorem covStep_mem_mono (m : TestModel σ ε) (cov : TestModelCoverage σ ε)
    (inv : TestInvocation σ ε) (k : String)
    (h : ∃ sc, (k, sc) ∈ cov.states) :
    ∃ sc, (k, sc) ∈ (covStep m cov inv).states := by
  cases inv with
  | visit s => exact addStateVisit_mem_mono m.options cov.states s k h
  | execEvent st => exact h
  | stateTest k' s => exact h
  | transitionHook st => exact h

theorem covFold_inv (m : TestModel σ ε) :
    ∀ (tr : List (TestInvocation σ ε)) (cov : TestModelCoverage σ ε),
      CovStatesInv m.options cov.states →
      CovStatesInv m.options ((tr.foldl (covStep m) cov).states) := by
  intro tr
  induction tr with
  | nil => intro cov h; exact h
  | cons inv rest ih =>
    intro cov h
    rw [List.foldl_cons]
    exact ih _ (covStep_inv m cov inv h)

theorem covFold_mem_mono (m : TestModel σ ε) :
    ∀ (tr : List (TestInvocation σ ε)) (cov : TestModelCoverage σ ε) (k : String),
      (∃ sc, (k, sc) ∈ cov.states) →
      ∃ sc, (k, sc) ∈ ((tr.foldl (covStep m) cov).states) := by
  intro tr
  induction tr with
  | nil => intro cov k h; exact h
  | cons inv rest ih =>
    intro cov k h
    rw [List.foldl_cons]
    exact ih _ k (covStep_mem_mono m cov inv k h)

theorem covFold_visit (m : TestModel σ ε) :
    ∀ (tr : List (TestInvocation σ ε)) (cov : TestModelCoverage σ ε) (s : σ),
      TestInvocation.visit s ∈ tr →
      ∃ sc, (m.options.serializeState s, sc) ∈ ((tr.foldl (covStep m) cov).states) := by
  intro tr
  induction tr with
  | nil => intro cov s h; cases h
  | cons inv rest ih =>
    intro cov s h
    rw [List.foldl_cons]
    rcases List.mem_cons.mp h with rfl | h'
    · apply covFold_mem_mono
      exact addStateVisit_mem m.options cov.states s
    · exact ih _ s h'

theorem coverageOf_inv (m : TestModel σ ε) (tr : List (TestInvocation σ ε)) :
    CovStatesInv m.options (coverageOf m tr).states := by
  rw [coverageOf]
  apply covFold_inv
  intro kv hkv
  cases hkv

theorem coverageOf_visit (m : TestModel σ ε) (tr : List (TestInvocation σ ε))
    (s : σ) (h : TestInvocation.visit s ∈ tr) :
    ∃ sc, (m.options.serializeState s, sc) ∈ (coverageOf m tr).states := by
  rw [coverageOf]
  exact covFold_visit m tr {} s h

theorem coversAllStates_all_covered (m : TestModel σ ε)
    (plans : List (StatePlan σ ε))
    (hinj : Function.Injective m.options.serializeState)
    (hok : getShortestPlans m.behavior m.options = .ok plans)
    (hnodes : ∀ node ∈ m.allStateNodes, ∃ pl ∈ plans, node ∈ m.stateNodes pl.state) :
    ∀ r ∈ getCoverage (coversAllStates m) (coverageOf m (testPlans m plans).2),
      r.status = .covered := by
  intro r hr
  rw [getCoverage] at hr
  obtain ⟨c, hc, hr'⟩ := List.mem_map.mp hr
  rw [coversAllStates] at hc
  obtain ⟨n, hn, hcn⟩ := List.mem_map.mp hc
  obtain ⟨pl, hpl, hnode⟩ := hnodes n hn
  obtain ⟨p, hpaths, hpstate, _⟩ :=
    getShortestPlans_single_path m.behavior m.options plans hok pl hpl
  have hp : p ∈ pl.paths := by
    rw [hpaths]
    exact List.mem_singleton.mpr rfl
  have hvisit := testPlans_visits m plans pl p hpl hp
  obtain ⟨sc, hsc⟩ := coverageOf_visit m (testPlans m plans).2 p.state hvisit
  have hscinv := coverageOf_inv m (testPlans m plans).2 _ hsc
  have hscstate : sc.state = p.state := hinj hscinv.1
  have hpred : c.predicate (coverageOf m (testPlans m plans).2) = true := by
    rw [← hcn]
    apply List.any_eq_true.mpr
    refine ⟨(m.options.serializeState p.state, sc), hsc, ?_⟩
    rw [Bool.and_eq_true]
    constructor
    · exact decide_eq_true hscinv.2
    · show (m.stateNodes sc.state).contains n = true
      rw [hscstate, hpstate]
      exact List.elem_iff.mpr hnode
  have hskip : c.skip = false := by
    rw [← hcn]
  rw [← hr']
  show (if c.skip then CoverageStatus.skipped
        else if c.predicate (coverageOf m (testPlans m plans).2)
        then CoverageStatus.covered else CoverageStatus.uncovered) = .covered
  rw [hskip, hpred]
  rfl

theorem testCoverage_ok_of_covered (criteria : List (Criterion σ ε))
    (cov : TestModelCoverage σ ε)
    (hcov : ∀ r ∈ getCoverage criteria cov, r.status = .covered) :
    testCoverage criteria cov = .ok () := by
  rw [testCoverage]
  have hemp : (getCoverage criteria cov).filter
      (fun r => r.status == CoverageStatus.uncovered) = [] := by
    rw [List.filter_eq_nil_iff]
    intro r hr
    rw [hcov r hr]
    decide
  rw [hemp]
  rfl

/-! ### Helper facts for the concrete machines -/

theorem unaryKey_injective : Function.Injective unaryKey := by
  intro a b h
  have := congrArg (fun s => s.data.length) h
  simpa [unaryKey] using this

theorem counter_reach : ∀ n : Nat, ReachInW counterBehavior counterOptions n n := by
  intro n
  induction n with
  | zero => exact ReachInW.init
  | succ k ih =>
    have := ReachInW.step (b := counterBehavior) (o := counterOptions)
      "TOGGLE" ih (by simp [counterOptions]) rfl
    simpa [counterBehavior] using this

theorem counterFilter_reach :
    ∀ n : Nat, n < 5 → ReachInW counterBehavior counterFilterOptions n n := by
  intro n
  induction n with
  | zero => intro _; exact ReachInW.init
  | succ k ih =>
    intro hk
    have hreach := ih (by omega)
    have := ReachInW.step (b := counterBehavior) (o := counterFilterOptions)
      "TOGGLE" hreach (by simp [counterFilterOptions])
      (by simp [counterBehavior, counterFilterOptions]; omega)
    simpa [counterBehavior] using this

theorem twoSerialize_injective : Function.Injective twoOptions.serializeState := by
  intro a b h
  cases a <;> cases b <;> first | rfl | (exfalso; exact absurd h (by decide))

/-! ### The claims -/

/-- C1 (amended): replaying a returned Path's events in order through the
behavior's transition function from the initial state yields exactly the
Path's recorded target for the built-in shortest-plan and simple-plan
generators; the output of a caller-supplied plan generator is returned
as-is, so the invariant holds for it only when the generator itself
maintains it — as the repository's test generator does (third conjunct). -/
theorem claim_C1_replay_soundness :
    (∀ (σ ε : Type) (b : SimpleBehavior σ ε) (o : TraversalOptions σ ε)
        (plans : List (StatePlan σ ε)),
      getShortestPlans b o = .ok plans →
      ∀ pl ∈ plans, ∀ p ∈ pl.paths, replaySteps b p.steps = p.state) ∧
    (∀ (σ ε : Type) (b : SimpleBehavior σ ε) (o : TraversalOptions σ ε)
        (plans : List (StatePlan σ ε)),
      getSimplePlans b o = .ok plans →
      ∀ pl ∈ plans, ∀ p ∈ pl.paths, replaySteps b p.steps = p.state) ∧
    (getPlans abBehavior abOptions (some customPlanGenerator) =
        .ok [⟨.b, [⟨.b, [⟨.a, "EVENT"⟩], 1⟩]⟩] ∧
      replaySteps abBehavior [⟨.a, "EVENT"⟩] = ABState.b) := by
  refine ⟨?_, ?_, by decide, by decide⟩
  · intro σ ε b o plans h pl hpl p hp
    obtain ⟨p', hpaths, hpstate, hok⟩ :=
      getShortestPlans_single_path b o plans h pl hpl
    rw [hpaths] at hp
    rcases List.mem_singleton.mp hp with rfl
    exact hok.2.1
  · intro σ ε b o plans h pl hpl p hp
    exact getSimplePlans_sound b o plans h pl hpl p hp

/-- C1 counterexample: a caller-supplied plan generator may return a Path
that does not replay to its recorded target, and `getPlans` hands it through
unverified — replaying the bogus Path's empty step list stays at the initial
state `a`, not its recorded target `b`. -/
theorem claim_C1_counterexample :
    getPlans linearBehavior linearOptions (some bogusPlanGenerator) =
      .ok [⟨.b, [⟨.b, [], 0⟩]⟩] ∧
    replaySteps linearBehavior [] ≠ LinState.b := by
  decide

/-- C2 (amended): shortest-plan generation (`getShortestPlans`) returns
plans with pairwise-distinct target keys, each holding exactly one path;
with an injective serializer every reachable filter-surviving state has a
plan, and each plan's single path has minimal weight among surviving
journeys to its target; for the linear machine this yields exactly the three
plans of weights 0, 1, 2.  (The default `getPlans`, by contrast, applies the
plan-level dedup — see the counterexample.) -/
theorem claim_C2_shortest_plans :
    (∀ (σ ε : Type) (b : SimpleBehavior σ ε) (o : TraversalOptions σ ε)
        (plans : List (StatePlan σ ε)),
      getShortestPlans b o = .ok plans →
      (plans.map (fun pl => o.serializeState pl.state)).Nodup ∧
      ∀ pl ∈ plans, ∃ p, pl.paths = [p] ∧ p.state = pl.state) ∧
    (∀ (σ ε : Type) (b : SimpleBehavior σ ε) (o : TraversalOptions σ ε)
        (plans : List (StatePlan σ ε)),
      Function.Injective o.serializeState →
      getShortestPlans b o = .ok plans →
      (∀ (s : σ) (n : Nat), ReachInW b o s n → ∃ pl ∈ plans, pl.state = s) ∧
      (∀ pl ∈ plans, ∀ p, pl.paths = [p] →
        ReachInW b o pl.state p.weight ∧
        ∀ n, ReachInW b o pl.state n → p.weight ≤ n)) ∧
    getShortestPlans linearBehavior linearOptions =
      .ok [⟨.a, [⟨.a, [], 0⟩]⟩,
           ⟨.b, [⟨.b, [⟨.a, "EVENT"⟩], 1⟩]⟩,
           ⟨.c, [⟨.c, [⟨.a, "EVENT"⟩, ⟨.b, "EVENT"⟩], 2⟩]⟩] := by
  refine ⟨?_, ?_, by decide⟩
  · intro σ ε b o plans h
    refine ⟨getShortestPlans_keys_nodup b o plans h, ?_⟩
    intro pl hpl
    obtain ⟨p, hpaths, hpstate, _⟩ :=
      getShortestPlans_single_path b o plans h pl hpl
    exact ⟨p, hpaths, hpstate⟩
  · intro σ ε b o plans hinj h
    constructor
    · intro s n hr
      obtain ⟨pl, hpl, hstate, _⟩ :=
        getShortestPlans_complete b o plans hinj h s n hr
      exact ⟨pl, hpl, hstate⟩
    · exact getShortestPlans_minimal b o plans hinj h

/-- C2 counterexample: the repository's `getPlans()` test expects a single
plan for the linear three-state machine, so the default `getPlans` is not
shortest-plan generation (which yields 3 plans there): the claim's equation
of the two fails. -/
theorem claim_C2_counterexample :
    (getPlans linearBehavior linearOptions none).map List.length = .ok 1 ∧
    (1 : Nat) ≠ 3 := by
  decide

/-- C3: a behavior whose distinct-key reachable state space is larger than
the traversal limit makes shortest-plan generation abort with the fatal
`TraversalLimitExceeded` error; the `Except.error` result carries no partial
plan list. -/
theorem claim_C3_traversal_limit (σ ε : Type) (b : SimpleBehavior σ ε)
    (o : TraversalOptions σ ε)
    (hinj : Function.Injective o.serializeState) (L : List σ)
    (hreach : ∀ s ∈ L, ∃ n, ReachInW b o s n)
    (hnd : (L.map o.serializeState).Nodup)
    (hlen : o.traversalLimit < L.length) :
    getShortestPlans b o = .error .traversalLimitExceeded :=
  getShortestPlans_limit_exceeded b o hinj L hreach hnd hlen

/-- C3 witness: the unbounded counter with `traversalLimit = 100` has 101
reachable states of pairwise-distinct keys, so generation throws. -/
theorem claim_C3_witness :
    getShortestPlans counterBehavior counterOptions =
      .error .traversalLimitExceeded := by
  apply claim_C3_traversal_limit Nat String counterBehavior counterOptions
    unaryKey_injective (List.range 101)
  · intro s _
    exact ⟨s, counter_reach s⟩
  · exact (List.nodup_range 101).map unaryKey_injective
  · decide

/-- C4: for the unbounded counter with the filter `count < 5`, shortest-plan
generation completes and yields exactly the five plans for counter values
0..4 (the boundary matching the filter's comparison: 4 survives, 5 is
pruned); in general a plan's target is either the initial state or a state
the filter accepted, so pruned states yield no plan. -/
theorem claim_C4_filter_prunes :
    getShortestPlans counterBehavior counterFilterOptions =
      .ok [⟨0, [⟨0, [], 0⟩]⟩,
           ⟨1, [⟨1, [⟨0, "TOGGLE"⟩], 1⟩]⟩,
           ⟨2, [⟨2, [⟨0, "TOGGLE"⟩, ⟨1, "TOGGLE"⟩], 2⟩]⟩,
           ⟨3, [⟨3, [⟨0, "TOGGLE"⟩, ⟨1, "TOGGLE"⟩, ⟨2, "TOGGLE"⟩], 3⟩]⟩,
           ⟨4, [⟨4, [⟨0, "TOGGLE"⟩, ⟨1, "TOGGLE"⟩, ⟨2, "TOGGLE"⟩, ⟨3, "TOGGLE"⟩], 4⟩]⟩] ∧
    counterFilterOptions.filter 4 = true ∧
    counterFilterOptions.filter 5 = false ∧
    (∀ (σ ε : Type) (b : SimpleBehavior σ ε) (o : TraversalOptions σ ε)
        (plans : List (StatePlan σ ε)),
      getShortestPlans b o = .ok plans →
      ∀ pl ∈ plans, pl.state = b.initialState ∨ o.filter pl.state = true) := by
  refine ⟨by decide, by decide, by decide, ?_⟩
  intro σ ε b o plans h
  exact getShortestPlans_filter_inv b o plans h

/-- C5 counterexample: the claim's resolution rule (exact composite key
first, then ancestors, then wildcard, first hit only) would invoke exactly
`b.b1` for the nested state, but the executor invokes every matching
registered test in registration order — `b` and then `b.b1`, as the
repository's nested-state snapshot records. -/
theorem claim_C5_counterexample :
    claimStateTestKeys ["a", "b", "b.b1"] (nestedSegs .bb1) = ["b.b1"] ∧
    stateTestKeys (runStateTests nestedModel NestedState.bb1).2 = ["b", "b.b1"] ∧
    (["b", "b.b1"] : List String) ≠ ["b.b1"] := by
  decide

/-- C5 (amended): the executor runs EVERY registered non-wildcard state test
whose key matches the step's resulting state, in registration order; the
wildcard `*` entry is used only when no other registered key matches; a
state matching no entry at all is simply not tested and raises no error.
The concrete conjuncts reproduce the repository's nested-state snapshot
(`a`, `a`, `b`, `b.b1`) and its wildcard test (`*` fires only for `c`). -/
theorem claim_C5_state_test_resolution :
    (∀ (σ ε : Type) (m : TestModel σ ε) (s : σ),
      m.testOptions.states.filter
        (fun kv => kv.1 != "*" && m.testOptions.stateMatcher s kv.1) = [] →
      m.testOptions.states.filter (fun kv => kv.1 == "*") = [] →
      runStateTests m s = (none, [])) ∧
    (∀ (σ ε : Type) (m : TestModel σ ε) (s : σ),
      m.testOptions.states.filter
        (fun kv => kv.1 != "*" && m.testOptions.stateMatcher s kv.1) ≠ [] →
      "*" ∉ stateTestKeys (runStateTests m s).2) ∧
    (∀ (σ ε : Type) (m : TestModel σ ε) (s : σ),
      (∀ kv ∈ resolvedStateTests m s, kv.2 s = none) →
      stateTestKeys (runStateTests m s).2 = (resolvedStateTests m s).map Prod.fst) ∧
    (getShortestPlans nestedBehavior nestedOptions).map
      (fun plans => stateTestKeys (testPlans nestedModel plans).2) =
      .ok ["a", "a", "b", "b.b1"] ∧
    (getShortestPlans wildBehavior wildOptions).map
      (fun plans => stateTestKeys (testPlans wildModel plans).2) =
      .ok ["a", "a", "b", "a", "*"] ∧
    (getShortestPlans wildBehavior wildOptions).map
      (fun plans => stateTestStates (testPlans wildModel plans).2) =
      .ok [.a, .a, .b, .a, .c] := by
  refine ⟨?_, ?_, ?_, by decide, by decide, by decide⟩
  · intro σ ε m s h1 h2
    exact resolvedStateTests_no_match m s h1 h2
  · intro σ ε m s h
    exact (resolvedStateTests_wildcard_not_matched m s h).1
  · intro σ ε m s hall
    rw [runStateTests]
    exact runStateTestList_keys_all_pass s (resolvedStateTests m s) hall

/-- C6: the per-event `cases` generator is applied to the exact state being
expanded (the dynamic machine's candidate events for `a` are the cases read
from `a`'s context values 1, 2, 3), producing one branch/plan per case (four
plans: the initial state plus one per case); the exec callback receives each
step with its event equal to the case payload merged with the event's type —
including, for the payload machine, a non-serializable function field. -/
theorem claim_C6_event_cases :
    dynOptions.getEvents DynState.a = dynCases DynState.a ∧
    dynCases DynState.a = [⟨1⟩, ⟨2⟩, ⟨3⟩] ∧
    (getShortestPlans dynBehavior dynOptions).map
      (fun plans => plans.map (fun pl => pl.state)) =
      .ok [.a, .b, .c, .d] ∧
    (getShortestPlans dynBehavior dynOptions).map
      (fun plans => (execSteps (testPlans dynModel plans).2).map
        (fun st => st.event)) =
      .ok [⟨1⟩, ⟨2⟩, ⟨3⟩] ∧
    getShortestPlansTo payBehavior payOptions (fun s => decide (s = .second)) =
      .ok [⟨.second, [⟨.second, [⟨.first, payCase⟩], 1⟩]⟩] ∧
    execSteps (testPath payModel ⟨.second, [⟨.first, payCase⟩], 1⟩).2 =
      [⟨.first, payCase⟩] ∧
    payCase = ⟨"NEXT", 10, nonSerializableData⟩ := by
  refine ⟨rfl, rfl, by decide, by decide, rfl, rfl, rfl⟩

/-- C7: within any plan returned by simple-plan generation, no two paths
share an identical ordered sequence of event types; on the branching
five-state machine the result is exactly the two maximal plans to `d` and
`e`, with distinct signatures. -/
theorem claim_C7_simple_sig_dedup :
    (∀ (σ ε : Type) (b : SimpleBehavior σ ε) (o : TraversalOptions σ ε)
        (plans : List (StatePlan σ ε)),
      getSimplePlans b o = .ok plans →
      ∀ pl ∈ plans,
        List.Pairwise (fun p q => pathSig o p ≠ pathSig o q) pl.paths) ∧
    getSimplePlans multiBehavior multiOptions =
      .ok [⟨.d, [⟨.d, [⟨.a, "EVENT"⟩, ⟨.b, "EVENT"⟩, ⟨.c, "EVENT"⟩], 3⟩]⟩,
           ⟨.e, [⟨.e, [⟨.a, "EVENT"⟩, ⟨.b, "EVENT"⟩, ⟨.c, "EVENT_2"⟩], 3⟩]⟩] := by
  refine ⟨?_, by decide⟩
  intro σ ε b o plans h
  exact getSimplePlans_sig_dedup b o plans h

/-- C8: during `testPath`, a throwing callback is captured into that step's
result entry (`state.error` and `event.error` record the outcomes of the
step's state test and event exec); the attempted steps are a prefix of the
path's steps, only the last attempted step can carry an error, a truncated
run's last entry does carry one (fail-fast: later steps are never attempted),
and the path's own target-state postcondition test runs exactly once, after
the last attempted step, its outcome recorded in the result's `state` slot.
The concrete conjunct shows the linear machine with a throwing exec: one
attempted step with the error in `event.error`, the second step never
attempted, the target still visited. -/
theorem claim_C8_fail_fast_capture :
    (∀ (σ ε : Type) (m : TestModel σ ε) (p : Path σ ε),
      (testPath m p).1.steps.map TestStepResult.step =
        p.steps.take (testPath m p).1.steps.length ∧
      (testPath m p).1.steps.length ≤ p.steps.length ∧
      (∀ r ∈ (testPath m p).1.steps.dropLast,
        r.state.error = none ∧ r.event.error = none) ∧
      ((testPath m p).1.steps.length < p.steps.length →
        ∃ r, (testPath m p).1.steps.getLast? = some r ∧
          (r.state.error ≠ none ∨ r.event.error ≠ none)) ∧
      (∀ r ∈ (testPath m p).1.steps,
        r.state.error = (runStateTests m r.step.state).1 ∧
        (r.state.error = none → r.event.error = (runExec m r.step).1)) ∧
      (testPath m p).1.state.error = (runStateTests m p.state).1 ∧
      (testPath m p).2 =
        (testSteps m p.steps).2 ++ .visit p.state :: (runStateTests m p.state).2) ∧
    testPath linearFailModel linearPathToC =
      ({ steps := [⟨⟨.a, "EVENT"⟩, ⟨none⟩, ⟨some "exec boom"⟩⟩]
         state := ⟨none⟩ },
       [.visit .a, .execEvent ⟨.a, "EVENT"⟩, .visit .c]) := by
  refine ⟨?_, by decide⟩
  intro σ ε m p
  obtain ⟨herr, hsteps, htrace⟩ := testPath_target m p
  obtain ⟨hA, hB, hC, hD, hE⟩ := testSteps_results m p.steps
  rw [hsteps]
  exact ⟨hA, hB, hC, hD, hE, herr, htrace⟩

/-- C9: `getCoverage` maps each criterion to `skipped` when marked skip and
otherwise to `covered`/`uncovered` by its predicate (first conjunct, over
arbitrary criteria); when every state node of the machine occurs in some
shortest plan's target configuration, executing every shortest plan leaves
every `coversAllStates()` criterion (one per state node) `covered`, and
`testCoverage` does not throw. -/
theorem claim_C9_coverage (σ ε : Type) (m : TestModel σ ε)
    (plans : List (StatePlan σ ε))
    (hinj : Function.Injective m.options.serializeState)
    (hok : getShortestPlans m.behavior m.options = .ok plans)
    (hnodes : ∀ node ∈ m.allStateNodes, ∃ pl ∈ plans, node ∈ m.stateNodes pl.state) :
    (∀ (criteria : List (Criterion σ ε)) (cov : TestModelCoverage σ ε),
      (getCoverage criteria cov).length = criteria.length ∧
      ∀ c ∈ criteria,
        (⟨c, if c.skip then .skipped
             else if c.predicate cov then .covered
             else .uncovered⟩ : CriterionResult σ ε) ∈ getCoverage criteria cov) ∧
    (∀ r ∈ getCoverage (coversAllStates m) (coverageOf m (testPlans m plans).2),
      r.status = .covered) ∧
    (getCoverage (coversAllStates m)
      (coverageOf m (testPlans m plans).2)).length = m.allStateNodes.length ∧
    testCoverage (coversAllStates m) (coverageOf m (testPlans m plans).2) =
      .ok () := by
  have hcov := coversAllStates_all_covered m plans hinj hok hnodes
  refine ⟨?_, hcov, ?_, ?_⟩
  · intro criteria cov
    constructor
    · rw [getCoverage, List.length_map]
    · intro c hc
      rw [getCoverage]
      exact List.mem_map_of_mem _ hc
  · rw [getCoverage, List.length_map, coversAllStates, List.length_map]
  · exact testCoverage_ok_of_covered _ _ hcov

/-- C9 witness: both shortest plans of the two-state machine executed;
all three node criteria (root, inactive, active) report covered and
`testCoverage` succeeds. -/
theorem claim_C9_witness :
    (getCoverage (coversAllStates twoModel)
      (coverageOf twoModel (testPlans twoModel twoShortestPlans).2)).length = 3 ∧
    testCoverage (coversAllStates twoModel)
      (coverageOf twoModel (testPlans twoModel twoShortestPlans).2) = .ok () := by
  have h := claim_C9_coverage TwoState String twoModel twoShortestPlans
    twoSerialize_injective (by decide) (by decide)
  exact ⟨h.2.2.1, h.2.2.2⟩

/-- C10: `testPath` tests the path's starting state — before the first
step's event fires — once per executed path: the trace opens with the visit
of the first step's pre-state and its state tests (first conjunct; for a
zero-step path the target is the starting state, second conjunct); executing
every shortest plan of the two-state machine therefore lets a wildcard state
test observe `inactive`, `inactive`, `active` in that order, exactly the
repository's snapshot. -/
theorem claim_C10_start_state_tested :
    (∀ (σ ε : Type) (m : TestModel σ ε) (p : Path σ ε) (st : Step σ ε)
        (rest : List (Step σ ε)), p.steps = st :: rest →
      ∃ tr, (testPath m p).2 =
        .visit st.state :: ((runStateTests m st.state).2 ++ tr)) ∧
    (∀ (σ ε : Type) (m : TestModel σ ε) (p : Path σ ε), p.steps = [] →
      (testPath m p).2 = .visit p.state :: (runStateTests m p.state).2) ∧
    (getShortestPlans twoBehavior twoOptions).map
      (fun plans => stateTestStates (testPlans twoModel plans).2) =
      .ok [.inactive, .inactive, .active] := by
  refine ⟨?_, ?_, by decide⟩
  · intro σ ε m p st rest h
    exact testPath_first_tested m p st rest h
  · intro σ ε m p h
    exact testPath_no_steps m p h

end XStateTest
